import Mathlib

/-!
# Verification of the `tie` localization engine (`tie/core.py`)

A shallow embedding of the resolution engine of the `tie` repository:
the locale matcher (`Tie._get_best_locale_match`), the deep merger
(`Tie._process_node`), the import loader (`Tie._load_yaml`), the renderer
(`Tie.__call__` with `Tie._get_translation`), the navigator
(`Tie.__getattr__` with `Tie._extract_variables`) and the locale setter
(`Tie.set_locale` with `ISO_language_code_regex`).

Python dictionaries are modelled as insertion-ordered association lists
(`Entries`); assigning to an existing key keeps its position, assigning to
a fresh key appends at the end, exactly as in CPython.  Python exceptions
are modelled with explicit error values (`Except`).  String routines used
by the source (`str.lower`, `str.split("-")`, `str.startswith`) are
re-implemented character-by-character so that every definition evaluates
inside the kernel.
-/

namespace TieCore

deriving instance DecidableEq for Except

/-- `s.lower()` on the character list of a string. -/
def strLower (s : String) : String := String.mk (s.data.map Char.toLower)

/-- Split a character list on a separator character; like Python's
`str.split(sep)` it always returns at least one (possibly empty) group. -/
def splitChars (sep : Char) : List Char → List (List Char)
  | [] => [[]]
  | c :: rest =>
    if c = sep then [] :: splitChars sep rest
    else match splitChars sep rest with
      | g :: gs => (c :: g) :: gs
      | [] => [[c]]

/-- `s.split("-")`. -/
def splitOnDash (s : String) : List String := (splitChars '-' s.data).map String.mk

/-- `s.startswith(pre)`. -/
def strStartsWith (s pre : String) : Bool := pre.data.isPrefixOf s.data

/-! ## Locale matcher: `Tie._get_best_locale_match` -/

/-- One assignment `d[k] = v` on an insertion-ordered Python dict:
an existing key keeps its position, a fresh key is appended. -/
def dictInsert (m : List (String × String)) (k v : String) : List (String × String) :=
  if m.any (fun p => p.1 = k) then m.map (fun p => if p.1 = k then (k, v) else p)
  else m ++ [(k, v)]

/-- `available_lower = {x.lower(): x for x in available}`: for duplicate
lowercased keys the position of the first occurrence and the value of the
last occurrence survive, as in a Python dict comprehension. -/
def availableLower (available : List String) : List (String × String) :=
  available.foldl (fun m x => dictInsert m (strLower x) x) []

/-- `candidate in available_lower` + `available_lower[candidate]`. -/
def lookupAv (m : List (String × String)) (k : String) : Option String :=
  (m.find? (fun p => p.1 = k)).map (fun p => p.2)

/-- The `while parts: ... parts.pop()` loop of tier 1, run over the
reversed subtag list so that the recursion is structural: the head of the
argument is the subtag dropped last. -/
def parentFallbackGo (m : List (String × String)) : List String → Option String
  | [] => none
  | x :: xs =>
    match lookupAv m (String.intercalate "-" (x :: xs).reverse) with
    | some v => some v
    | none => parentFallbackGo m xs

/-- Tier 1 of `_get_best_locale_match`: exact match, then repeatedly drop
the last subtag. -/
def parentFallback (m : List (String × String)) (parts : List String) : Option String :=
  parentFallbackGo m parts.reverse

/-- `Tie._get_best_locale_match(requested, available)` (core.py:224-264). -/
def get_best_locale_match (requested : String) (available : List String) : Option String :=
  let requested_parts := splitOnDash (strLower requested)
  let available_lower := availableLower available
  match parentFallback available_lower requested_parts with
  | some v => some v
  | none =>
    let requestedDash := strLower requested ++ "-"
    match (available_lower.find? (fun p => strStartsWith p.1 requestedDash)).map (fun p => p.2) with
    | some v => some v
    | none =>
      let base := requested_parts.headD ""
      (available_lower.find? (fun p => strStartsWith p.1 (base ++ "-"))).map (fun p => p.2)

/-- Tier 1 as the claim states it: try every non-empty prefix of the
requested subtag sequence, longest first. -/
def tier1Spec (requested : String) (available : List String) : Option String :=
  let parts := splitOnDash (strLower requested)
  (List.range parts.length).findSome? (fun i =>
    lookupAv (availableLower available) (String.intercalate "-" (parts.take (parts.length - i))))

/-- Tier 2 as the claim states it: an available code whose lowercase form
starts with the requested code plus `"-"`. -/
def tier2Spec (requested : String) (available : List String) : Option String :=
  ((availableLower available).find? (fun p =>
    strStartsWith p.1 (strLower requested ++ "-"))).map (fun p => p.2)

/-- Tier 3 as the claim states it: an available code whose lowercase form
starts with the requested code's first subtag plus `"-"`. -/
def tier3Spec (requested : String) (available : List String) : Option String :=
  let base := (splitOnDash (strLower requested)).headD ""
  ((availableLower available).find? (fun p =>
    strStartsWith p.1 (base ++ "-"))).map (fun p => p.2)

/-- The three tiers of the claim, applied in order. -/
def bestMatchSpec (requested : String) (available : List String) : Option String :=
  (tier1Spec requested available).orElse (fun _ =>
    (tier2Spec requested available).orElse (fun _ => tier3Spec requested available))

/-! ## Data model: parsed YAML values

A parsed document value is a scalar (`str`/`int`/`bool`) or a mapping.
Mappings (`Entries`) are insertion-ordered association lists, the model of
a Python `dict`. -/

mutual
inductive Val where
  | str : String → Val
  | int : Int → Val
  | bool : Bool → Val
  | dict : Entries → Val
deriving DecidableEq, Repr
inductive Entries where
  | nil : Entries
  | cons : String → Val → Entries → Entries
deriving DecidableEq, Repr
end

/-- `d.get(k)`. -/
def entGet : Entries → String → Option Val
  | .nil, _ => none
  | .cons k v rest, key => if k = key then some v else entGet rest key

/-- `k in d`. -/
def entHasKey (e : Entries) (k : String) : Bool := (entGet e k).isSome

/-- `d[k] = v`: an existing key keeps its position, a fresh key is
appended at the end. -/
def entSet : Entries → String → Val → Entries
  | .nil, key, value => .cons key value .nil
  | .cons k v rest, key, value =>
    if k = key then .cons k value rest else .cons k v (entSet rest key value)

/-- `del d[k]`. -/
def entDelete : Entries → String → Entries
  | .nil, _ => .nil
  | .cons k v rest, key => if k = key then rest else .cons k v (entDelete rest key)

/-- `list(d.keys())`. -/
def entKeys : Entries → List String
  | .nil => []
  | .cons k _ rest => k :: entKeys rest

/-- `d.update(u)`: every key of `u` assigned into `d` in order. -/
def entUpdate : Entries → Entries → Entries
  | d, .nil => d
  | d, .cons k v rest => entUpdate (entSet d k v) rest

/-- Python truthiness of a parsed value: empty string, `0`, `False` and
the empty mapping are falsy. -/
def truthy : Val → Bool
  | .str s => s ≠ ""
  | .int n => n ≠ 0
  | .bool b => b
  | .dict es => es ≠ .nil

/-- `isinstance(v, Primitive)` for `Primitive = str | int | float | bool`. -/
def isPrimitive : Val → Bool
  | .dict _ => false
  | _ => true

/-- Python exceptions raised by the engine, one constructor per distinct
raise site/underlying exception class. -/
inductive PyErr where
  /-- `TypeError` (section rendered, non-section navigated, or a stdlib
  string routine applied to a non-string). -/
  | typeError
  /-- `AttributeError("The requested subnode ... is not found")`. -/
  | attributeNotFound
  /-- `AttributeError` raised by CPython itself when `_extract_variables`
  (or `dict.get`) is applied to a scalar node, e.g.
  `'str' object has no attribute 'copy'`. -/
  | attributeNoCopy
  /-- `KeyError` from `self._variables[value[1:]]`. -/
  | keyError
  /-- `ValueError("Merge conflict occured: '<key>'")`. -/
  | valueMergeConflict (key : String)
  /-- `ValueError("Cyclic import detected: '<path>'")`. -/
  | valueCyclicImport (path : String)
  /-- `InvalidLocaleError`. -/
  | valueInvalidLocale (locale : String)
  /-- CPython `RecursionError`: the interpreter's recursion limit. -/
  | recursionLimit
deriving DecidableEq, Repr

/-! ## Merger: `Tie._process_node` (core.py:148-158) -/

/-- Line 106: `self._merge_conflict or config.get("merge_conflict", "override")`. -/
def effectiveMergeConflict (instPolicy : String) (docPolicy : Option String) : String :=
  if instPolicy ≠ "" then instPolicy else docPolicy.getD "override"

/-- Line 107: the recognised merge-conflict strategies. -/
def validMergeConflict (p : String) : Bool := p = "raise" || p = "override" || p = "ignore"

/-- The merge loop of `Tie._process_node` (core.py:148-158): each key of
`current` is merged into target `t` in order.  A mapping value recurses
into the target's value under the same key (an absent target key starts
from the empty mapping, `target_node.get(key, {})`); any other value is a
leaf and is subject to the conflict policy.  A leaf merged onto a scalar
target whose incoming mapping is non-empty makes CPython fail inside the
recursive call (`AttributeError`/`TypeError` on the scalar target,
modelled as `typeError`); with an empty incoming mapping the recursive
call touches nothing and the scalar target survives. -/
def process_node_merge (policy : String) (t : Entries) : Entries → Except PyErr Entries
  | .nil => .ok t
  | .cons k (.dict m) rest =>
    match entGet t k with
    | some (.dict s) =>
      match process_node_merge policy s m with
      | .error e => .error e
      | .ok merged => process_node_merge policy (entSet t k (.dict merged)) rest
    | none =>
      match process_node_merge policy .nil m with
      | .error e => .error e
      | .ok merged => process_node_merge policy (entSet t k (.dict merged)) rest
    | some other =>
      match m with
      | .nil => process_node_merge policy (entSet t k other) rest
      | .cons _ _ _ => .error .typeError
  | .cons k v rest =>
    if entHasKey t k then
      if policy = "raise" then .error (.valueMergeConflict k)
      else if policy = "ignore" then process_node_merge policy t rest
      else process_node_merge policy (entSet t k v) rest
    else process_node_merge policy (entSet t k v) rest

/-! ## Loader: `Tie._load_yaml` (core.py:74-121) import/cycle structure

File opening, YAML parsing, the `tie` configuration block and the version
gate are external collaborators here; `docs p` abstracts the document at
path `p` to its list of `$import` paths (all files exist and parse).  The
point modelled is the order of the cycle guard (line 75) versus the
recording of the path (line 121): the path is added to `_loaded_files`
only AFTER `_process_node` has recursively loaded every import.  `fuel`
models the CPython recursion limit: every nested call burns one unit and
exhaustion is `RecursionError`. -/

mutual
/-- `Tie._load_yaml(path, ...)`: cycle guard, then process the imports of
the document, then record the path as loaded.  Returns the updated
`_loaded_files` (kept as an insertion-ordered list). -/
def load_yaml (docs : String → List String) : Nat → List String → String →
    Except PyErr (List String)
  | 0, _, _ => .error .recursionLimit
  | fuel + 1, loaded, path =>
    if path ∈ loaded then .error (.valueCyclicImport path)
    else
      match load_imports docs fuel loaded (docs path) with
      | .error e => .error e
      | .ok loaded2 => .ok (loaded2 ++ [path])

/-- The `for import_path in imports:` loop of `Tie._process_node`
(core.py:140-146), threading the loader state. -/
def load_imports (docs : String → List String) : Nat → List String → List String →
    Except PyErr (List String)
  | _, loaded, [] => .ok loaded
  | 0, _, _ :: _ => .error .recursionLimit
  | fuel + 1, loaded, p :: ps =>
    match load_yaml docs fuel loaded p with
    | .error e => .error e
    | .ok loaded2 => load_imports docs fuel loaded2 ps
end

/-- `Tie.load(path)` for a sequence of paths (core.py:58-72): each path is
loaded in order against the shared `_loaded_files` state. -/
def load_paths (docs : String → List String) (fuel : Nat) :
    List String → List String → Except PyErr (List String)
  | loaded, [] => .ok loaded
  | loaded, p :: ps =>
    match load_yaml docs fuel loaded p with
    | .error e => .error e
    | .ok loaded2 => load_paths docs fuel loaded2 ps

/-! ## Renderer: `Tie.__call__` (core.py:286-328) -/

mutual
/-- `str(v)` for scalars; mappings print as their `repr`. -/
def pyRepr : Val → String
  | .str s => "\x27" ++ s ++ "\x27"
  | .int n => toString n
  | .bool b => if b then "True" else "False"
  | .dict es => "\x7b" ++ String.intercalate ", " (pyReprEntries es) ++ "\x7d"

/-- `repr` of the entries of a mapping. -/
def pyReprEntries : Entries → List String
  | .nil => []
  | .cons k v rest => ("\x27" ++ k ++ "\x27: " ++ pyRepr v) :: pyReprEntries rest
end

/-- `str(v)`. -/
def pyStr : Val → String
  | .str s => s
  | v => pyRepr v

/-- `str(v)` where `v` may be Python `None` (prints `"None"`). -/
def pyStrOpt : Option Val → String
  | none => "None"
  | some v => pyStr v

/-- `value[1:]`. -/
def strDrop1 (s : String) : String := String.mk s.data.tail

/-- `Tie._get_translation(node, locales)` (core.py:266-284): the first
locale in priority order for which the matcher finds a truthy key wins. -/
def get_translation (node : Val) (locales : List String) : Option Val :=
  match node with
  | .dict entries =>
    locales.findSome? (fun locale =>
      match get_best_locale_match locale (entKeys entries) with
      | some m => if m = "" then none else entGet entries m
      | none => none)
  | v => some v

/-- After a `"{"`, recognise the regex fragment `" *}"`; returns the
characters after the match. -/
def matchUnnamedAt : List Char → Option (List Char)
  | '}' :: tail => some tail
  | ' ' :: rest => matchUnnamedAt rest
  | _ => none

/-- `re.sub("{ *}", "{wrap_text}", wrap)`: left-to-right, non-overlapping,
the replacement is not rescanned.  `fuel` bounds the scan; every step
consumes at least one character, so `cs.length` units always suffice. -/
def reSubUnnamedGo : Nat → List Char → List Char
  | 0, cs => cs
  | _, [] => []
  | fuel + 1, '{' :: rest =>
    match matchUnnamedAt rest with
    | some tail => "{wrap_text}".data ++ reSubUnnamedGo fuel tail
    | none => '{' :: reSubUnnamedGo fuel rest
  | fuel + 1, c :: rest => c :: reSubUnnamedGo fuel rest

/-- `re.sub("{ *}", "{wrap_text}", s)`. -/
def re_sub_unnamed (s : String) : String := String.mk (reSubUnnamedGo s.data.length s.data)

/-- Split at the first `"}"`: the replacement-field name and the rest. -/
def fieldSplit : List Char → Option (List Char × List Char)
  | [] => none
  | '}' :: tail => some ([], tail)
  | c :: rest => (fieldSplit rest).map (fun p => (c :: p.1, p.2))

/-- `tmpl.format_map(SafeDict({"wrap_text": value}))`: `{{`/`}}` are
escapes, the field `wrap_text` substitutes `value` (not rescanned), a
`SafeDict` miss leaves `{field}` literally.  Conversion/format-spec
syntax (`{x!r:>8}`) is not used by any document and is treated as part of
the field name; a lone unpaired brace (a `ValueError` in CPython) is kept
literally. -/
def formatMapGo (value : String) : Nat → List Char → List Char
  | 0, cs => cs
  | _, [] => []
  | fuel + 1, '{' :: '{' :: rest => '{' :: formatMapGo value fuel rest
  | fuel + 1, '}' :: '}' :: rest => '}' :: formatMapGo value fuel rest
  | fuel + 1, '{' :: rest =>
    match fieldSplit rest with
    | some (field, tail) =>
      (if field = "wrap_text".data then value.data else '{' :: (field ++ ['}'])) ++
        formatMapGo value fuel tail
    | none => '{' :: rest
  | fuel + 1, c :: rest => c :: formatMapGo value fuel rest

/-- `tmpl.format_map(SafeDict({"wrap_text": value}))`. -/
def format_map_safe (tmpl : String) (value : String) : String :=
  String.mk (formatMapGo value tmpl.data.length tmpl.data)

/-- After a `"{"`, recognise `" *name *}"` (spaces greedy, `name`
literal); returns the characters after the match.  The source splices
`name` into the pattern unescaped; names with regex metacharacters or
leading/trailing spaces do not occur. -/
def matchVarAt (name : List Char) (l : List Char) : Option (List Char) :=
  let l1 := l.dropWhile (fun c => c = ' ')
  if name.isPrefixOf l1 then
    match (l1.drop name.length).dropWhile (fun c => c = ' ') with
    | '}' :: tail => some tail
    | _ => none
  else none

/-- `re.sub("{ *" + name + " *}", repl, s)` scan. -/
def reSubVarGo (name : List Char) (repl : List Char) : Nat → List Char → List Char
  | 0, cs => cs
  | _, [] => []
  | fuel + 1, '{' :: rest =>
    match matchVarAt name rest with
    | some tail => repl ++ reSubVarGo name repl fuel tail
    | none => '{' :: reSubVarGo name repl fuel rest
  | fuel + 1, c :: rest => c :: reSubVarGo name repl fuel rest

/-- `re.sub("{ *" + name + " *}", repl, s)`. -/
def re_sub_var (name repl s : String) : String :=
  String.mk (reSubVarGo name.data repl.data s.data.length s.data)

/-- The variable-substitution loop of `Tie.__call__` (core.py:317-326).
`tr` is the running `translation` value: Python `None` when no locale
matched, else the current value.  A `"$name"` string value dereferences
one level through the instance variable table (`KeyError` when absent);
the resolved value goes through `_get_translation`; `re.sub` then needs
the running translation to be a string (`TypeError` on `None` or a
non-string value). -/
def substVarsGo (instVars : Entries) (locales : List String) :
    Entries → Option Val → Except PyErr (Option Val)
  | .nil, tr => .ok tr
  | .cons name value rest, tr =>
    let innerE : Except PyErr Val :=
      match value with
      | .str s =>
        if strStartsWith s "$" then
          match entGet instVars (strDrop1 s) with
          | some v => .ok v
          | none => .error .keyError
        else .ok (.str s)
      | v => .ok v
    match innerE with
    | .error e => .error e
    | .ok inner =>
      let repl := pyStrOpt (get_translation inner locales)
      match tr with
      | some (.str s) => substVarsGo instVars locales rest (some (.str (re_sub_var name repl s)))
      | _ => .error .typeError

/-- `Tie.__call__(**vars)` (core.py:286-328).  Returns `.ok none` when the
method returns Python `None` (no locale matched, no wrap, no variable entries to
substitute). -/
def tie_call (is_section_mode : Bool) (node : Val) (locale default_locale : String)
    (varTable : Entries) (vars : Entries) : Except PyErr (Option Val) :=
  if is_section_mode then .error .typeError
  else
    match node with
    | .dict entries =>
      let locales := [locale, default_locale]
      let translation := get_translation (.dict entries) locales
      let afterWrap : Except PyErr (Option Val) :=
        match entGet entries "wrap" with
        | some w =>
          if truthy w then
            match w with
            | .str ws =>
              .ok (some (.str (format_map_safe (re_sub_unnamed ws) (pyStrOpt translation))))
            | _ => .error .typeError
          else .ok translation
        | none => .ok translation
      match afterWrap with
      | .error e => .error e
      | .ok tr => substVarsGo varTable locales (entUpdate varTable vars) tr
    | prim => .ok (some (.str (pyStr prim)))

/-! ## Navigator: `Tie.__getattr__` / `Tie._extract_variables (named `extractVarsGo` here)` -/

/-- The per-node state of a `Tie` instance: the fields assigned by
`Tie.__init__` (core.py:46-53) plus `_locale` (assigned by `set_locale`;
`""` stands for not-yet-assigned). -/
structure NodeState where
  merge_conflict : String
  is_section_mode : Bool
  node : Val
  varTable : Entries
  default_locale : String
  loaded_files : List String
  locale : String
deriving DecidableEq, Repr

/-- `Tie._extract_variables (named `extractVarsGo` here)` (core.py:160-165) on a mapping node: each
`$`-prefixed key is moved (in order, `$` stripped) into the variable
table and deleted from the node's own mapping.  Returns the updated
variable table and the node content left behind. -/
def extractVarsGo (varTable : Entries) : Entries → Entries × Entries
  | .nil => (varTable, .nil)
  | .cons k v rest =>
    if strStartsWith k "$" then extractVarsGo (entSet varTable (strDrop1 k) v) rest
    else
      let p := extractVarsGo varTable rest
      (p.1, .cons k v p.2)

/-- Python `bool(x)` for an optional value (`None` is falsy). -/
def pyBoolOpt : Option Val → Bool
  | some v => truthy v
  | none => false

/-- `Tie.__getattr__(name)` (core.py:167-195), which `__getitem__`
forwards to.  Besides the navigated subnode it returns the parent node's
content AFTER the call: the chosen child's mapping is a shared reference,
and the subnode's variable extraction deletes the child's `$`-keys in place,
so the parent content observes the stripped child.  A scalar child makes
variable extraction call `.copy()` on it, a CPython `AttributeError`
(`attributeNoCopy`), raised before anything is mutated. -/
def tie_getattr (st : NodeState) (name : String) : Except PyErr (NodeState × Val) :=
  match st.is_section_mode with
  | false => .error .typeError
  | true =>
    match st.node with
    | .dict es =>
      let sectionV := entGet es ("+" ++ name)
      let textV := entGet es name
      let sectionTruthy := pyBoolOpt sectionV
      let textTruthy := pyBoolOpt textV
      match sectionTruthy || textTruthy with
      | false => .error .attributeNotFound
      | true =>
        -- `subnode._node = section or text`, `_is_section_mode = bool(section)`
        match sectionTruthy with
        | true =>
          match sectionV with
          | some (.dict ces) =>
            let p := extractVarsGo st.varTable ces
            .ok ({ st with is_section_mode := true, node := .dict p.2, varTable := p.1 },
                 .dict (entSet es ("+" ++ name) (.dict p.2)))
          | _ => .error .attributeNoCopy
        | false =>
          match textV with
          | some (.dict ces) =>
            let p := extractVarsGo st.varTable ces
            .ok ({ st with is_section_mode := false, node := .dict p.2, varTable := p.1 },
                 .dict (entSet es name (.dict p.2)))
          | _ => .error .attributeNoCopy
    | _ => .error .attributeNoCopy

/-! ## Locale validation: `ISO_language_code_regex` and `Tie.set_locale` -/

/-- `[a-z]`. -/
def isLowerAZ (c : Char) : Bool := 'a' ≤ c && c ≤ 'z'

/-- `[A-Z]`. -/
def isUpperAZ (c : Char) : Bool := 'A' ≤ c && c ≤ 'Z'

/-- `[a-zA-Z]`. -/
def isAlphaAZ (c : Char) : Bool := isLowerAZ c || isUpperAZ c

/-- The deterministic state machine of
`re.match("^[a-z]{2,3}(-[a-zA-Z]{2,8})*$", s)`: `prim n` inside the
primary tag after `n` letters, `dash` right after a `-`, `tag n` inside a
subtag after `n` letters, `newlineEnd` after the single trailing newline
Python's `$` anchor tolerates, `dead` on failure.  Both quantifiers are
forced (a further letter can only extend the current tag), so the machine
is an exact translation of the regex. -/
inductive RegexState where
  | prim (n : Nat)
  | dash
  | tag (n : Nat)
  | newlineEnd
  | dead
deriving DecidableEq, Repr

/-- One character of `ISO_language_code_regex`. -/
def regexStep (st : RegexState) (c : Char) : RegexState :=
  match st with
  | .prim n =>
    if isLowerAZ c && n < 3 then .prim (n + 1)
    else if c = '-' && 2 ≤ n then .dash
    else if c = '\n' && 2 ≤ n then .newlineEnd
    else .dead
  | .dash => if isAlphaAZ c then .tag 1 else .dead
  | .tag n =>
    if isAlphaAZ c && n < 8 then .tag (n + 1)
    else if c = '-' && 2 ≤ n then .dash
    else if c = '\n' && 2 ≤ n then .newlineEnd
    else .dead
  | .newlineEnd => .dead
  | .dead => .dead

/-- Acceptance at end of input. -/
def regexAccept : RegexState → Bool
  | .prim n => 2 ≤ n
  | .tag n => 2 ≤ n
  | .newlineEnd => true
  | _ => false

/-- `bool(ISO_language_code_regex.match(s))` (core.py:16). -/
def ISO_language_code_match (s : String) : Bool :=
  regexAccept (s.data.foldl regexStep (.prim 0))

/-- `Tie.set_locale(locale)` (core.py:365-384).  `locale or
self._default_locale`: a falsy (empty or absent) argument falls back to
the default locale; the possibly substituted value is validated and
stored on a copy of the node (`inplace` only changes which object is
returned, not the result). -/
def set_locale (st : NodeState) (locale : Option String) : Except PyErr NodeState :=
  let l := match locale with
    | some s => if s ≠ "" then s else st.default_locale
    | none => st.default_locale
  match ISO_language_code_match l with
  | true => .ok { st with locale := l }
  | false => .error (.valueInvalidLocale l)

/-! ## Default locale resolution (core.py:118-119) -/

/-- Line 118 for one document:
`self._default_locale = self._default_locale or config.get("default_locale", "en-US")`.
`docDecl` is the document's declared `default_locale` (`none` when the key
is absent). -/
def defaultLocaleStep (cur : String) (docDecl : Option String) : String :=
  if cur ≠ "" then cur else docDecl.getD "en-US"

/-- The instance's `_default_locale` after loading a sequence of
documents, starting from the constructor argument. -/
def default_locale_after (ctor : String) (docs : List (Option String)) : String :=
  docs.foldl defaultLocaleStep ctor

/-- The claim's reading: the declaration of the first loaded document
that declares one. -/
def firstDeclaredDefault (docs : List (Option String)) : Option String :=
  docs.findSome? id

/-! ## Constructor: `Tie.__init__` (core.py:23-56) -/

/-- `Tie.__init__` before any document is loaded (core.py:46-53).  The
`use_fallbacks` and `panic_on_missing` parameters are accepted by the
source but assigned to no attribute and read nowhere, so the constructed
state does not depend on them. -/
def tie_init (default_locale merge_conflict : String)
    (use_fallbacks panic_on_missing : Bool) : NodeState :=
  { merge_conflict := merge_conflict
    is_section_mode := true
    node := .dict .nil
    varTable := .nil
    default_locale := default_locale
    loaded_files := []
    locale := "" }

/-- No key of the mapping starts with `"$"`. -/
def entNoDollar : Entries → Bool
  | .nil => true
  | .cons k _ rest => !(strStartsWith k "$") && entNoDollar rest

/-- Every mapping value of `es` is free of top-level `"$"`-keys. -/
def dollarFreeTop : Val → Bool
  | .dict es => entNoDollar es
  | _ => true

/-- Every child mapping reachable in one step has no `"$"`-keys. -/
def entValsDollarFree : Entries → Bool
  | .nil => true
  | .cons _ v rest => dollarFreeTop v && entValsDollarFree rest

/-- `bool(d.get(k))`: the entry exists and its value is truthy. -/
def truthyLookup (es : Entries) (k : String) : Bool := pyBoolOpt (entGet es k)

/-- A section-mode node state over content `node`. -/
def mkSectionState (mc dl loc : String) (lf : List String) (vt : Entries) (node : Val) :
    NodeState :=
  { merge_conflict := mc, is_section_mode := true, node := node, varTable := vt,
    default_locale := dl, loaded_files := lf, locale := loc }

/-- The locale pattern exactly as the claim words it: 2-3 lowercase
letters, optionally followed by `-`-separated subtags of 1-8 letters
(case-insensitive). -/
def claimLocalePattern (s : String) : Bool :=
  match splitOnDash s with
  | [] => false
  | p :: subs =>
    (2 ≤ p.length && p.length ≤ 3 && p.data.all isLowerAZ) &&
    subs.all (fun t => 1 ≤ t.length && t.length ≤ 8 && t.data.all isAlphaAZ)

/-- The pattern the code's regex actually implements, claim-side reading:
2-3 lowercase letters, optionally followed by `-`-separated subtags of
2-8 letters (case-insensitive). -/
def amendedLocalePattern (s : String) : Bool :=
  match splitOnDash s with
  | [] => false
  | p :: subs =>
    (2 ≤ p.length && p.length ≤ 3 && p.data.all isLowerAZ) &&
    subs.all (fun t => 2 ≤ t.length && t.length ≤ 8 && t.data.all isAlphaAZ)

/-- Lines 118-119 for one loaded document: resolve the instance default
locale, then `self.set_locale(inplace=True)` re-initialises the active
locale to it. -/
def loadLocaleStep (st : NodeState) (docDecl : Option String) : Except PyErr NodeState :=
  let dl := defaultLocaleStep st.default_locale docDecl
  set_locale { st with default_locale := dl } none

/-- `Tie.__call__` on a node state. -/
def tie_call_st (st : NodeState) (vars : Entries) : Except PyErr (Option Val) :=
  tie_call st.is_section_mode st.node st.locale st.default_locale st.varTable vars

/-- The import structure of a single self-importing document: the file at
path `A.yaml` declares `$import: [A.yaml]`. -/
def selfImportDocs : String → List String := fun p => if p = "A.yaml" then ["A.yaml"] else []

/-- The regex DFA run from an arbitrary state. -/
def acceptsFrom (st : RegexState) (cs : List Char) : Bool :=
  regexAccept (cs.foldl regexStep st)

/-- What may legally follow a completed tag: end of input, the tolerated
trailing newline, or a `-` continuing with further subtags. -/
def boundaryA : List Char → Bool
  | [] => true
  | c :: t =>
    if c = '\n' then decide (t = [])
    else if c = '-' then acceptsFrom .dash t
    else false

/-- A group of `lo`-`hi` characters of class `q`. -/
def genOk (q : Char → Bool) (lo hi : Nat) (t : List Char) : Bool :=
  decide (lo ≤ t.length) && decide (t.length ≤ hi) && t.all q

/-- A subtag group as the amended claim words it: 2-8 letters. -/
def subtagOkC (t : List Char) : Bool := genOk isAlphaAZ 2 8 t

/-- The primary tag as the claim words it: 2-3 lowercase letters. -/
def primaryOkC (t : List Char) : Bool := genOk isLowerAZ 2 3 t

/-- The newline-tolerant acceptance of a final group. -/
def lastGroupOk (q : Char → Bool) (lo hi : Nat) (g : List Char) : Bool :=
  genOk q lo hi g || (g.getLast? == some '\n' && genOk q lo hi g.dropLast)

/-- Subtag groups after the primary, the last one optionally carrying the
tolerated trailing newline. -/
def tailGroupsOk : List (List Char) → Bool
  | [] => false
  | [g] => lastGroupOk isAlphaAZ 2 8 g
  | g :: g2 :: gs => subtagOkC g && tailGroupsOk (g2 :: gs)

/-- All dash-separated groups of a candidate string: the first is the
primary tag, the rest are subtags; the last group may carry the tolerated
trailing newline. -/
def groupsOkC : List (List Char) → Bool
  | [] => false
  | [p] => lastGroupOk isLowerAZ 2 3 p
  | p :: g2 :: gs => primaryOkC p && tailGroupsOk (g2 :: gs)

/-- The group check of the amended claim without newline tolerance:
primary tag then subtags. -/
def plainG : List (List Char) → Bool
  | [] => false
  | p :: subs => primaryOkC p && subs.all subtagOkC

/-- The amended claim's pattern with the trailing-newline tolerance made
explicit at string level. -/
def amendedNL (s : String) : Bool :=
  amendedLocalePattern s ||
    (s.data.getLast? == some '\n' && amendedLocalePattern (String.mk s.data.dropLast))

/-! ## Theorems -/

theorem findSome?_map_succ {γ : Type} (g : Nat → Option γ) (l : List Nat) :
    (l.map Nat.succ).findSome? g = l.findSome? (fun i => g (i + 1)) := by
  induction l with
  | nil => rfl
  | cons x xs ih => simp [List.findSome?_cons, ih]

theorem parentFallbackGo_eq (m : List (String × String)) (rp : List String) :
    parentFallbackGo m rp = (List.range rp.length).findSome? (fun i =>
      lookupAv m (String.intercalate "-" (rp.reverse.take (rp.length - i)))) := by
  induction rp with
  | nil => rfl
  | cons x xs ih =>
    rw [parentFallbackGo]
    rw [List.length_cons, List.range_succ_eq_map, List.findSome?_cons]
    simp only [Nat.sub_zero]
    have h0 : List.take (xs.length + 1) (x :: xs).reverse = (x :: xs).reverse :=
      List.take_of_length_le (by simp)
    rw [h0]
    cases h : lookupAv m (String.intercalate "-" (x :: xs).reverse) with
    | some v => rfl
    | none =>
      show parentFallbackGo m xs = _
      rw [findSome?_map_succ, ih]
      congr 1
      funext i
      congr 2
      have hrev : (x :: xs).reverse = xs.reverse ++ [x] := by simp
      rw [hrev, List.take_append_of_le_length (by simp)]
      congr 1
      omega

theorem tier1_eq (requested : String) (available : List String) :
    parentFallback (availableLower available) (splitOnDash (strLower requested)) =
      tier1Spec requested available := by
  unfold parentFallback tier1Spec
  rw [parentFallbackGo_eq]
  simp

/-- C1: `Tie._get_best_locale_match` applies the three tiers in order —
exact-or-parent fallback over `"-"`-separated subtag prefixes, then the
child fallback (`requested + "-"` as lowercase prefix), then the
same-base-language fallback (first subtag plus `"-"`) — and returns
`None` exactly when all three tiers fail; `zh-Hant-HK` over
`[zh-Hant, zh]` gives `zh-Hant`, `el` over `[el-GR]` gives `el-GR`,
`en-AU` over `[en-CA]` gives `en-CA`, and `fr` over `[de]` finds
nothing. -/
theorem C1_locale_matcher (requested : String) (available : List String) :
    get_best_locale_match requested available = bestMatchSpec requested available ∧
    get_best_locale_match "zh-Hant-HK" ["zh-Hant", "zh"] = some "zh-Hant" ∧
    get_best_locale_match "el" ["el-GR"] = some "el-GR" ∧
    get_best_locale_match "en-AU" ["en-CA"] = some "en-CA" ∧
    get_best_locale_match "fr" ["de"] = none ∧
    (get_best_locale_match requested available = none ↔
      tier1Spec requested available = none ∧ tier2Spec requested available = none ∧
      tier3Spec requested available = none) := by
  have hmain : ∀ r a, get_best_locale_match r a = bestMatchSpec r a := by
    intro r a
    show (match parentFallback (availableLower a) (splitOnDash (strLower r)) with
      | some v => some v
      | none =>
        match (List.find? (fun p : String × String => strStartsWith p.1 (strLower r ++ "-"))
            (availableLower a)).map (fun p : String × String => p.2) with
        | some v => some v
        | none =>
          (List.find? (fun p : String × String =>
              strStartsWith p.1 ((splitOnDash (strLower r)).headD "" ++ "-"))
            (availableLower a)).map (fun p : String × String => p.2)) = _
    rw [tier1_eq]
    unfold bestMatchSpec tier2Spec tier3Spec
    cases tier1Spec r a with
    | some v => rfl
    | none =>
      cases (List.find? (fun p : String × String => strStartsWith p.1 (strLower r ++ "-"))
          (availableLower a)).map (fun p : String × String => p.2) with
      | some v => rfl
      | none => rfl
  refine ⟨hmain requested available, by decide, by decide, by decide, by decide, ?_⟩
  rw [hmain]
  unfold bestMatchSpec
  cases tier1Spec requested available <;> cases tier2Spec requested available <;>
    cases tier3Spec requested available <;> simp [Option.orElse]


/-- C2: for a leaf key declared by both documents, the `raise` policy
fails the merge with the merge-conflict error, `ignore` keeps the
first-loaded value and `override` replaces it with the last-loaded value;
`override` is the effective default policy; a key whose value is a nested
mapping is merged recursively (an absent target key starts from an empty
mapping) and is not treated as a conflict even under `raise`. -/
theorem C2_merge_policies (policy : String) (k w v a b : String) :
    process_node_merge "raise" (.cons k (.str w) .nil) (.cons k (.str v) .nil) =
      .error (.valueMergeConflict k) ∧
    process_node_merge "ignore" (.cons k (.str w) .nil) (.cons k (.str v) .nil) =
      .ok (.cons k (.str w) .nil) ∧
    process_node_merge "override" (.cons k (.str w) .nil) (.cons k (.str v) .nil) =
      .ok (.cons k (.str v) .nil) ∧
    effectiveMergeConflict "" none = "override" ∧
    process_node_merge policy .nil (.cons k (.dict (.cons "y" (.str a) .nil)) .nil) =
      .ok (.cons k (.dict (.cons "y" (.str a) .nil)) .nil) ∧
    process_node_merge "raise" (.cons k (.dict (.cons "p" (.str a) .nil)) .nil)
        (.cons k (.dict (.cons "q" (.str b) .nil)) .nil) =
      .ok (.cons k (.dict (.cons "p" (.str a) (.cons "q" (.str b) .nil))) .nil) := by
  refine ⟨?_, ?_, ?_, rfl, ?_, ?_⟩
  · simp [process_node_merge, entHasKey, entGet]
  · simp [process_node_merge, entHasKey, entGet]
  · simp [process_node_merge, entHasKey, entGet, entSet]
  · simp [process_node_merge, entHasKey, entGet, entSet]
  · simp [process_node_merge, entHasKey, entGet, entSet]

theorem selfImport_recursionLimit (fuel : Nat) :
    load_yaml selfImportDocs fuel [] "A.yaml" = .error .recursionLimit ∧
    load_imports selfImportDocs fuel [] ["A.yaml"] = .error .recursionLimit := by
  induction fuel with
  | zero => exact ⟨rfl, rfl⟩
  | succ fuel ih =>
    refine ⟨?_, ?_⟩
    · simp [load_yaml, selfImportDocs, ih.2]
    · simp [load_imports, ih.1]

/-- C3: a document that imports itself makes the loader re-enter
`_load_yaml` unboundedly — the run ends in the interpreter's
`RecursionError`, for every recursion budget — and the cyclic-import
`ValueError` is never raised for it, because the path is recorded in
`_loaded_files` only after its imports are fully processed.  The guard
does fire, but only for a path re-loaded after a completed load, as the
third conjunct shows. -/
theorem C3_cyclic_import_never_detected (fuel : Nat) :
    load_yaml selfImportDocs fuel [] "A.yaml" = .error .recursionLimit ∧
    load_yaml selfImportDocs fuel [] "A.yaml" ≠ .error (.valueCyclicImport "A.yaml") ∧
    load_paths (fun _ => []) 1 [] ["B.yaml", "B.yaml"] = .error (.valueCyclicImport "B.yaml") := by
  refine ⟨(selfImport_recursionLimit fuel).1, ?_, rfl⟩
  rw [(selfImport_recursionLimit fuel).1]
  simp

/-- C4: a leaf with only `{fr: "Bonjour"}` rendered under active locale
`de` and default locale `en` matches no locale at all — yet `__call__`
returns Python `None` instead of raising anything: no missing-translation
error exists and `panic_on_missing` is never consulted (it is accepted by
`__init__` but stored nowhere). -/
theorem C4_missing_translation_returns_none :
    get_translation (.dict (.cons "fr" (.str "Bonjour") .nil)) ["de", "en"] = none ∧
    tie_call false (.dict (.cons "fr" (.str "Bonjour") .nil)) "de" "en" .nil .nil = .ok none :=
  ⟨rfl, rfl⟩

/-- C5 counterexample: the claim's wrap value `"[ ]"` contains no `{ }`
placeholder, so `re.sub("{ *}", ...)` finds nothing, `format_map`
substitutes nothing, and the wrap template itself replaces the
translation: the render returns `"[ ]"`, not `"[Hi Sam]"`. -/
theorem C5_wrap_without_placeholder_counterexample :
    tie_call false (.dict (.cons "en" (.str "Hi {name}") (.cons "wrap" (.str "[ ]") .nil)))
      "en" "en-US" .nil (.cons "name" (.str "Sam") .nil) = .ok (some (.str "[ ]")) ∧
    "[ ]" ≠ "[Hi Sam]" :=
  ⟨rfl, by decide⟩

/-- C5 amended: with the placeholder actually present in the wrap
template — `{en: "Hi {name}", wrap: "[{ }]"}` — rendering under active
locale `en` with `name="Sam"` gives `"[Hi Sam]"`: the unnamed placeholder
receives the resolved translation first, variable substitution runs on
the wrapped result. -/
theorem C5_wrap_with_placeholder :
    tie_call false (.dict (.cons "en" (.str "Hi {name}") (.cons "wrap" (.str "[{ }]") .nil)))
      "en" "en-US" .nil (.cons "name" (.str "Sam") .nil) = .ok (some (.str "[Hi Sam]")) :=
  rfl

theorem extractVarsGo_nodollar : ∀ (vt es : Entries), entNoDollar es = true →
    extractVarsGo vt es = (vt, es)
  | _, .nil, _ => rfl
  | vt, .cons k v rest, h => by
    rw [entNoDollar] at h
    simp only [Bool.and_eq_true, Bool.not_eq_true'] at h
    rw [extractVarsGo, h.1]
    simp [extractVarsGo_nodollar vt rest h.2]

theorem entSet_self : ∀ (es : Entries) (k : String) (v : Val), entGet es k = some v →
    entSet es k v = es
  | .nil, k, v, h => by simp [entGet] at h
  | .cons k2 v2 rest, k, v, h => by
    rw [entGet] at h
    rw [entSet]
    by_cases hk : k2 = k
    · simp [hk] at h ⊢
      exact h.symm
    · simp [hk] at h ⊢
      exact entSet_self rest k v h

theorem entGet_dollarFree : ∀ (es : Entries) (k : String) (v : Val),
    entValsDollarFree es = true → entGet es k = some v → dollarFreeTop v = true
  | .nil, k, v, _, h => by simp [entGet] at h
  | .cons k2 v2 rest, k, v, hfree, h => by
    rw [entValsDollarFree] at hfree
    simp only [Bool.and_eq_true] at hfree
    rw [entGet] at h
    by_cases hk : k2 = k
    · simp [hk] at h
      rw [← h]
      exact hfree.1
    · simp [hk] at h
      exact entGet_dollarFree rest k v hfree.2 h

theorem set_locale_frame (st : NodeState) (l : Option String) (st2 : NodeState)
    (h : set_locale st l = .ok st2) : st2.node = st.node ∧ st2.varTable = st.varTable := by
  unfold set_locale at h
  simp only [] at h
  split at h
  · cases h
    exact ⟨rfl, rfl⟩
  · cases h

/-- C6 counterexample: navigating into the section `s`, whose mapping
declares the variable key `$x`, deletes `$x` from the mapping in place:
the tree reachable from the root content differs after the call. -/
theorem C6_navigation_mutates_tree :
    tie_getattr
      (mkSectionState "override" "en-US" "en-US" [] .nil
        (.dict (.cons "+s" (.dict (.cons "$x" (.str "1")
          (.cons "greet" (.dict (.cons "en" (.str "hi") .nil)) .nil))) .nil)))
      "s"
    = .ok ({ merge_conflict := "override", is_section_mode := true,
             node := .dict (.cons "greet" (.dict (.cons "en" (.str "hi") .nil)) .nil),
             varTable := .cons "x" (.str "1") .nil,
             default_locale := "en-US", loaded_files := [], locale := "en-US" },
           .dict (.cons "+s" (.dict (.cons "greet" (.dict (.cons "en" (.str "hi") .nil)) .nil))
             .nil)) ∧
    Val.dict (.cons "+s" (.dict (.cons "greet" (.dict (.cons "en" (.str "hi") .nil)) .nil)) .nil)
      ≠ Val.dict (.cons "+s" (.dict (.cons "$x" (.str "1")
          (.cons "greet" (.dict (.cons "en" (.str "hi") .nil)) .nil))) .nil) :=
  ⟨rfl, by decide⟩

/-- C6 amended: after load the tree is left intact by every operation
except that navigating into a child strips the `"$"`-prefixed keys from
that child's own mapping in place (moving them into the variable table);
whenever the navigated child carries no `"$"`-keys, the parent content is
bit-for-bit unchanged by the call, and `set_locale` never touches content
or variables. -/
theorem C6_amended_frame (mc dl loc name : String) (lf : List String) (vt es : Entries)
    (st2 : NodeState) (after : Val)
    (hfree : entValsDollarFree es = true)
    (h : tie_getattr (mkSectionState mc dl loc lf vt (.dict es)) name = .ok (st2, after)) :
    after = .dict es ∧
    (∀ (st3 : NodeState) (l : Option String) (st4 : NodeState),
      set_locale st3 l = .ok st4 → st4.node = st3.node ∧ st4.varTable = st3.varTable) := by
  refine ⟨?_, fun st3 l st4 h34 => set_locale_frame st3 l st4 h34⟩
  simp only [tie_getattr, mkSectionState] at h
  split at h
  · cases h
  · split at h
    · split at h
      · cases h
        have hdf := entGet_dollarFree es ("+" ++ name) _ hfree (by assumption)
        rw [dollarFreeTop] at hdf
        rw [extractVarsGo_nodollar vt _ hdf]
        rw [entSet_self es ("+" ++ name) _ (by assumption)]
      · cases h
    · split at h
      · cases h
        have hdf := entGet_dollarFree es name _ hfree (by assumption)
        rw [dollarFreeTop] at hdf
        rw [extractVarsGo_nodollar vt _ hdf]
        rw [entSet_self es name _ (by assumption)]
      · cases h

/-- C6 amended, witness. -/
theorem C6_amended_frame_witness :
    entValsDollarFree (.cons "+s" (.dict (.cons "greet" (.dict (.cons "en" (.str "hi") .nil))
      .nil)) .nil) = true ∧
    Val.dict (.cons "+s" (.dict (.cons "greet" (.dict (.cons "en" (.str "hi") .nil)) .nil)) .nil)
      = .dict (.cons "+s" (.dict (.cons "greet" (.dict (.cons "en" (.str "hi") .nil)) .nil))
          .nil) :=
  ⟨by decide,
    (C6_amended_frame "override" "en-US" "en-US" "s" [] .nil
      (.cons "+s" (.dict (.cons "greet" (.dict (.cons "en" (.str "hi") .nil)) .nil)) .nil)
      { merge_conflict := "override", is_section_mode := true,
        node := .dict (.cons "greet" (.dict (.cons "en" (.str "hi") .nil)) .nil),
        varTable := .nil, default_locale := "en-US", loaded_files := [], locale := "en-US" }
      (.dict (.cons "+s" (.dict (.cons "greet" (.dict (.cons "en" (.str "hi") .nil)) .nil)) .nil))
      (by decide) rfl).1⟩

/-- C7 counterexample: the bare entry `a` exists (value `""`), yet
navigation raises the not-found error, because `if not (section or text)`
tests truthiness, not presence. -/
theorem C7_falsy_entry_counterexample :
    tie_getattr (mkSectionState "override" "en-US" "en-US" [] .nil
        (.dict (.cons "a" (.str "") .nil))) "a"
      = .error .attributeNotFound ∧
    entGet (.cons "a" (.str "") .nil) "a" = some (.str "") :=
  ⟨rfl, rfl⟩

/-- C7 amended: on a section-mode node, navigation raises the not-found
error exactly when neither a truthy `+name` section entry nor a truthy
bare `name` entry exists (falsy values — `""`, `0`, `False`, `{}` — count
as absent); on a text-mode node navigation always raises the type
error. -/
theorem C7_amended_navigation_errors :
    (∀ (mc dl loc name : String) (lf : List String) (vt es : Entries),
      tie_getattr (mkSectionState mc dl loc lf vt (.dict es)) name = .error .attributeNotFound ↔
        truthyLookup es ("+" ++ name) = false ∧ truthyLookup es name = false) ∧
    (∀ (st : NodeState) (name : String), st.is_section_mode = false →
      tie_getattr st name = .error .typeError) := by
  constructor
  · intro mc dl loc name lf vt es
    simp only [tie_getattr, mkSectionState]
    unfold truthyLookup
    cases hS : pyBoolOpt (entGet es ("+" ++ name)) <;> cases hT : pyBoolOpt (entGet es name)
    · simp
    · simp only [Bool.false_or]
      cases hE : entGet es name with
      | none => rw [hE] at hT; simp [pyBoolOpt] at hT
      | some v => cases v <;> simp
    · simp only [Bool.true_or]
      cases hE : entGet es ("+" ++ name) with
      | none => rw [hE] at hS; simp [pyBoolOpt] at hS
      | some v => cases v <;> simp
    · simp only [Bool.true_or]
      cases hE : entGet es ("+" ++ name) with
      | none => rw [hE] at hS; simp [pyBoolOpt] at hS
      | some v => cases v <;> simp
  · intro st name hsec
    simp [tie_getattr, hsec]

/-- C7 amended, witness. -/
theorem C7_amended_navigation_errors_witness :
    tie_getattr (mkSectionState "override" "en-US" "en-US" [] .nil
        (.dict (.cons "b" (.str "x") .nil))) "q" = .error .attributeNotFound ∧
    tie_getattr ({ merge_conflict := "override", is_section_mode := false,
                   node := .str "x", varTable := .nil, default_locale := "en-US",
                   loaded_files := [], locale := "en-US" } : NodeState) "q"
      = .error .typeError :=
  ⟨(C7_amended_navigation_errors.1 "override" "en-US" "en-US" "q" [] .nil
      (.cons "b" (.str "x") .nil)).mpr (by decide),
   C7_amended_navigation_errors.2
      ({ merge_conflict := "override", is_section_mode := false,
         node := .str "x", varTable := .nil, default_locale := "en-US",
         loaded_files := [], locale := "en-US" } : NodeState) "q" rfl⟩


/-- C8 counterexample: `en-a` matches the claim's pattern (subtags of 1-8
letters) but the code's regex requires 2-8 letters per subtag, so
`set_locale("en-a")` raises the invalid-locale error. -/
theorem C8_one_letter_subtag_counterexample :
    claimLocalePattern "en-a" = true ∧
    set_locale (mkSectionState "override" "en-US" "en-US" [] .nil (.dict .nil)) (some "en-a")
      = .error (.valueInvalidLocale "en-a") :=
  ⟨by decide, rfl⟩

theorem default_locale_after_of_ne (docs : List (Option String)) :
    ∀ (cur : String), cur ≠ "" → default_locale_after cur docs = cur := by
  induction docs with
  | nil => intro cur h; rfl
  | cons d rest ih =>
    intro cur h
    show default_locale_after (defaultLocaleStep cur d) rest = cur
    rw [defaultLocaleStep, if_pos h]
    exact ih cur h

/-- C9 counterexample: with no constructor default, the first document
declares no default locale and the second declares `fr`; the claim says
the instance default is `fr`, but the code resolves the first document's
absent declaration to `en-US` immediately, and the second document's
declaration is ignored. -/
theorem C9_second_document_declaration_ignored :
    default_locale_after "" [none, some "fr"] = "en-US" ∧
    firstDeclaredDefault [none, some "fr"] = some "fr" ∧
    ("en-US" : String) ≠ "fr" :=
  ⟨rfl, rfl, by decide⟩

/-- C9 amended: the instance default locale is the constructor argument
when one is given; otherwise it is decided by the FIRST loaded document
alone — that document's declared `default_locale`, or `en-US` when it
declares none — and later documents' declarations are ignored; after each
load the active locale is re-initialised to the instance default. -/
theorem C9_amended_default_locale (ctor : String) (d : Option String)
    (docs : List (Option String)) :
    (ctor ≠ "" → default_locale_after ctor docs = ctor) ∧
    (ctor = "" → d.getD "en-US" ≠ "" →
      default_locale_after ctor (d :: docs) = d.getD "en-US") ∧
    (∀ (st : NodeState) (dd : Option String) (st2 : NodeState),
      loadLocaleStep st dd = .ok st2 → st2.locale = st2.default_locale) := by
  refine ⟨fun h => default_locale_after_of_ne docs ctor h, fun hc hd => ?_, ?_⟩
  · show default_locale_after (defaultLocaleStep ctor d) docs = _
    rw [defaultLocaleStep, if_neg (by simp [hc])]
    exact default_locale_after_of_ne docs _ hd
  · intro st dd st2 h
    unfold loadLocaleStep set_locale at h
    simp only [] at h
    split at h
    · cases h
      rfl
    · cases h

/-- C9 amended, witness. -/
theorem C9_amended_default_locale_witness :
    default_locale_after "de" [some "fr"] = "de" ∧
    default_locale_after "" [some "fr", none] = "fr" ∧
    ({ merge_conflict := "", is_section_mode := true, node := .dict .nil, varTable := .nil,
       default_locale := "fr", loaded_files := [], locale := "fr" } : NodeState).locale
      = ({ merge_conflict := "", is_section_mode := true, node := .dict .nil, varTable := .nil,
           default_locale := "fr", loaded_files := [], locale := "fr" } : NodeState).default_locale :=
  ⟨(C9_amended_default_locale "de" none [some "fr"]).1 (by decide),
   (C9_amended_default_locale "" (some "fr") [none]).2.1 rfl (by decide),
   (C9_amended_default_locale "" none []).2.2
     (mkSectionState "" "" "" [] .nil (.dict .nil)) (some "fr")
     ({ merge_conflict := "", is_section_mode := true, node := .dict .nil, varTable := .nil,
        default_locale := "fr", loaded_files := [], locale := "fr" } : NodeState) rfl⟩

/-- C10: `use_fallbacks` and `panic_on_missing` are accepted by the
constructor but stored nowhere and read nowhere, so two instances that
differ only in these flags are identical states, and every navigation,
locale change and render on them gives identical results. -/
theorem C10_flags_never_influence_behavior (dl mc : String) (uf1 pm1 uf2 pm2 : Bool) :
    tie_init dl mc uf1 pm1 = tie_init dl mc uf2 pm2 ∧
    (∀ (name : String),
      tie_getattr (tie_init dl mc uf1 pm1) name = tie_getattr (tie_init dl mc uf2 pm2) name) ∧
    (∀ (l : Option String),
      set_locale (tie_init dl mc uf1 pm1) l = set_locale (tie_init dl mc uf2 pm2) l) ∧
    (∀ (vars : Entries),
      tie_call_st (tie_init dl mc uf1 pm1) vars = tie_call_st (tie_init dl mc uf2 pm2) vars) :=
  ⟨rfl, fun _ => rfl, fun _ => rfl, fun _ => rfl⟩





theorem acceptsFrom_dead : ∀ (cs : List Char), acceptsFrom .dead cs = false
  | [] => rfl
  | _ :: cs => acceptsFrom_dead cs

theorem acceptsFrom_newlineEnd : ∀ (cs : List Char),
    acceptsFrom .newlineEnd cs = decide (cs = [])
  | [] => rfl
  | c :: cs => by
    show acceptsFrom .dead cs = _
    rw [acceptsFrom_dead]
    simp


theorem alpha_ne_dash {c : Char} (h : isAlphaAZ c = true) : ¬c = '-' := by
  intro hc
  subst hc
  exact absurd h (by decide)

theorem alpha_ne_newline {c : Char} (h : isAlphaAZ c = true) : ¬c = '\n' := by
  intro hc
  subst hc
  exact absurd h (by decide)

theorem lower_ne_dash {c : Char} (h : isLowerAZ c = true) : ¬c = '-' := by
  intro hc
  subst hc
  exact absurd h (by decide)

theorem lower_ne_newline {c : Char} (h : isLowerAZ c = true) : ¬c = '\n' := by
  intro hc
  subst hc
  exact absurd h (by decide)

theorem tag_run : ∀ (cs : List Char) (n : Nat), 1 ≤ n → n ≤ 8 →
    acceptsFrom (.tag n) cs =
      (decide (n + (cs.takeWhile isAlphaAZ).length ≤ 8) &&
       decide (2 ≤ n + (cs.takeWhile isAlphaAZ).length) &&
       boundaryA (cs.dropWhile isAlphaAZ))
  | [], n, _, h8 => by
    show regexAccept (.tag n) = _
    simp [regexAccept, boundaryA, h8]
  | c :: cs, n, h1, h8 => by
    have hstep : acceptsFrom (.tag n) (c :: cs) = acceptsFrom (regexStep (.tag n) c) cs := rfl
    rw [hstep, List.takeWhile_cons, List.dropWhile_cons]
    cases hA : isAlphaAZ c with
    | true =>
      by_cases hn : n < 8
      · have hs : regexStep (.tag n) c = .tag (n + 1) := by simp [regexStep, hA, hn]
        rw [hs, tag_run cs (n + 1) (by omega) (by omega)]
        simp only [hA, if_true, List.length_cons]
        generalize (cs.takeWhile isAlphaAZ).length = L
        rw [show n + 1 + L = n + (L + 1) from by omega]
      · have hs : regexStep (.tag n) c = .dead := by
          simp [regexStep, hA, hn, alpha_ne_dash hA, alpha_ne_newline hA]
        rw [hs, acceptsFrom_dead]
        have hgt : ¬(n + ((cs.takeWhile isAlphaAZ).length + 1) ≤ 8) := by omega
        simp only [hA, if_true, List.length_cons]
        simp [hgt]
    | false =>
      by_cases hd : c = '-'
      · subst hd
        by_cases h2 : 2 ≤ n
        · have hs : regexStep (.tag n) '-' = .dash := by simp [regexStep, hA, h2]
          rw [hs]
          have hb : boundaryA ('-' :: cs) = acceptsFrom .dash cs := by
            rw [boundaryA]
            rw [if_neg (by decide), if_pos rfl]
          simp [hA, hb, h8, h2]
        · have hs : regexStep (.tag n) '-' = .dead := by simp [regexStep, hA, h2]
          rw [hs, acceptsFrom_dead]
          simp [hA, h2]
      · by_cases hnl : c = '\n'
        · subst hnl
          by_cases h2 : 2 ≤ n
          · have hs : regexStep (.tag n) '\n' = .newlineEnd := by simp [regexStep, hA, h2]
            rw [hs, acceptsFrom_newlineEnd]
            have hb : boundaryA ('\n' :: cs) = decide (cs = []) := by
              rw [boundaryA, if_pos rfl]
            simp [hA, hb, h8, h2]
          · have hs : regexStep (.tag n) '\n' = .dead := by simp [regexStep, hA, h2]
            rw [hs, acceptsFrom_dead]
            simp [hA, h2]
        · have hs : regexStep (.tag n) c = .dead := by simp [regexStep, hA, hd, hnl]
          rw [hs, acceptsFrom_dead]
          have hb : boundaryA (c :: cs) = false := by
            rw [boundaryA, if_neg hnl, if_neg hd]
          simp [hA, hb]


theorem prim_run : ∀ (cs : List Char) (n : Nat), n ≤ 3 →
    acceptsFrom (.prim n) cs =
      (decide (n + (cs.takeWhile isLowerAZ).length ≤ 3) &&
       decide (2 ≤ n + (cs.takeWhile isLowerAZ).length) &&
       boundaryA (cs.dropWhile isLowerAZ))
  | [], n, h3 => by
    show regexAccept (.prim n) = _
    simp [regexAccept, boundaryA, h3]
  | c :: cs, n, h3 => by
    have hstep : acceptsFrom (.prim n) (c :: cs) = acceptsFrom (regexStep (.prim n) c) cs := rfl
    rw [hstep, List.takeWhile_cons, List.dropWhile_cons]
    cases hA : isLowerAZ c with
    | true =>
      by_cases hn : n < 3
      · have hs : regexStep (.prim n) c = .prim (n + 1) := by simp [regexStep, hA, hn]
        rw [hs, prim_run cs (n + 1) (by omega)]
        simp only [hA, if_true, List.length_cons]
        generalize (cs.takeWhile isLowerAZ).length = L
        rw [show n + 1 + L = n + (L + 1) from by omega]
      · have hs : regexStep (.prim n) c = .dead := by
          simp [regexStep, hA, hn, lower_ne_dash hA, lower_ne_newline hA]
        rw [hs, acceptsFrom_dead]
        have hgt : ¬(n + ((cs.takeWhile isLowerAZ).length + 1) ≤ 3) := by omega
        simp only [hA, if_true, List.length_cons]
        simp [hgt]
    | false =>
      by_cases hd : c = '-'
      · subst hd
        by_cases h2 : 2 ≤ n
        · have hs : regexStep (.prim n) '-' = .dash := by simp [regexStep, hA, h2]
          rw [hs]
          have hb : boundaryA ('-' :: cs) = acceptsFrom .dash cs := by
            rw [boundaryA]
            rw [if_neg (by decide), if_pos rfl]
          simp [hA, hb, h3, h2]
        · have hs : regexStep (.prim n) '-' = .dead := by simp [regexStep, hA, h2]
          rw [hs, acceptsFrom_dead]
          simp [hA, h2]
      · by_cases hnl : c = '\n'
        · subst hnl
          by_cases h2 : 2 ≤ n
          · have hs : regexStep (.prim n) '\n' = .newlineEnd := by simp [regexStep, hA, h2]
            rw [hs, acceptsFrom_newlineEnd]
            have hb : boundaryA ('\n' :: cs) = decide (cs = []) := by
              rw [boundaryA, if_pos rfl]
            simp [hA, hb, h3, h2]
          · have hs : regexStep (.prim n) '\n' = .dead := by simp [regexStep, hA, h2]
            rw [hs, acceptsFrom_dead]
            simp [hA, h2]
        · have hs : regexStep (.prim n) c = .dead := by simp [regexStep, hA, hd, hnl]
          rw [hs, acceptsFrom_dead]
          have hb : boundaryA (c :: cs) = false := by
            rw [boundaryA, if_neg hnl, if_neg hd]
          simp [hA, hb]


theorem splitChars_ne_nil (sep : Char) : ∀ (cs : List Char), splitChars sep cs ≠ []
  | [] => by simp [splitChars]
  | c :: rest => by
    rw [splitChars]
    by_cases hc : c = sep
    · simp [hc]
    · rw [if_neg hc]
      cases h : splitChars sep rest with
      | nil => simp
      | cons g gs => simp

theorem splitChars_nosep (sep : Char) : ∀ (cs : List Char), (∀ c ∈ cs, c ≠ sep) →
    splitChars sep cs = [cs]
  | [], _ => rfl
  | c :: rest, h => by
    rw [splitChars, if_neg (h c (by simp))]
    rw [splitChars_nosep sep rest (fun x hx => h x (by simp [hx]))]

theorem splitChars_append_sep (sep : Char) : ∀ (g t : List Char), (∀ c ∈ g, c ≠ sep) →
    splitChars sep (g ++ sep :: t) = g :: splitChars sep t
  | [], t, _ => by
    rw [List.nil_append, splitChars, if_pos rfl]
  | c :: g, t, h => by
    rw [List.cons_append, splitChars, if_neg (h c (by simp))]
    rw [splitChars_append_sep sep g t (fun x hx => h x (by simp [hx]))]

theorem group_reject (q : Char → Bool) (lo hi : Nat) (A : List Char) (d : Char) (B : List Char)
    (hd : q d = false) (hcase : ¬(d = '\n' ∧ B = [])) :
    lastGroupOk q lo hi (A ++ d :: B) = false := by
  rw [lastGroupOk]
  have h1 : genOk q lo hi (A ++ d :: B) = false := by
    simp [genOk, List.all_append, hd]
  rw [h1, Bool.false_or]
  rcases List.eq_nil_or_concat B with hB | ⟨B2, b, hB⟩
  · subst hB
    have hdn : ¬d = '\n' := fun hh => hcase ⟨hh, rfl⟩
    have : (A ++ [d]).getLast? = some d := List.getLast?_concat A
    rw [this]
    simp [hdn]
  · subst hB
    simp only [List.concat_eq_append] at h1 ⊢
    have hre : A ++ d :: (B2 ++ [b]) = (A ++ d :: B2) ++ [b] := by simp
    rw [hre, List.dropLast_concat]
    have h2 : genOk q lo hi (A ++ d :: B2) = false := by
      simp [genOk, List.all_append, hd]
    simp [h2]

theorem group_accept (q : Char → Bool) (lo hi : Nat) (run : List Char)
    (hrun : run.all q = true) (hq : q '\n' = false) :
    lastGroupOk q lo hi run = genOk q lo hi run := by
  rw [lastGroupOk]
  rcases List.eq_nil_or_concat run with hR | ⟨r2, a, hR⟩
  · subst hR
    simp
  · subst hR
    simp only [List.concat_eq_append] at hrun ⊢
    have hgl : (r2 ++ [a]).getLast? = some a := List.getLast?_concat r2
    rw [hgl]
    have ha : q a = true := by
      have := List.all_eq_true.mp hrun a (by simp)
      exact this
    have hne : ¬a = '\n' := by
      intro hh
      rw [hh, hq] at ha
      cases ha
    simp [hne]

theorem group_accept_nl (q : Char → Bool) (lo hi : Nat) (run : List Char)
    (hq : q '\n' = false) :
    lastGroupOk q lo hi (run ++ ['\n']) = genOk q lo hi run := by
  rw [lastGroupOk]
  have h1 : genOk q lo hi (run ++ ['\n']) = false := by
    simp [genOk, List.all_append, hq]
  rw [h1, Bool.false_or, List.getLast?_concat, List.dropLast_concat]
  simp


theorem dropWhile_head_false (p : Char → Bool) : ∀ (l : List Char) (d : Char) (r : List Char),
    l.dropWhile p = d :: r → p d = false
  | [], d, r, h => by simp at h
  | c :: l, d, r, h => by
    rw [List.dropWhile_cons] at h
    by_cases hc : p c = true
    · rw [if_pos hc] at h
      exact dropWhile_head_false p l d r h
    · rw [if_neg hc] at h
      cases h
      simpa using hc

theorem all_takeWhile (p : Char → Bool) : ∀ (l : List Char), (l.takeWhile p).all p = true
  | [] => rfl
  | c :: l => by
    rw [List.takeWhile_cons]
    by_cases hc : p c = true
    · rw [if_pos hc]
      simp [hc, all_takeWhile p l]
    · rw [if_neg hc]
      rfl

theorem firstSep_split (sep : Char) : ∀ (l : List Char),
    (∀ c ∈ l, c ≠ sep) ∨ ∃ P Q, l = P ++ sep :: Q ∧ (∀ c ∈ P, c ≠ sep)
  | [] => Or.inl (by simp)
  | c :: l => by
    by_cases hc : c = sep
    · subst hc
      exact Or.inr ⟨[], l, by simp⟩
    · rcases firstSep_split sep l with h | ⟨P, Q, hPQ, hP⟩
      · refine Or.inl ?_
        intro x hx
        rcases List.mem_cons.mp hx with hx | hx
        · subst hx; exact hc
        · exact h x hx
      · refine Or.inr ⟨c :: P, Q, by rw [hPQ, List.cons_append], ?_⟩
        intro x hx
        rcases List.mem_cons.mp hx with hx | hx
        · subst hx; exact hc
        · exact hP x hx


theorem all_false_of_mem {α : Type} {q : α → Bool} {l : List α} {x : α} (hx : x ∈ l)
    (hq : q x = false) : l.all q = false := by
  cases h : l.all q with
  | false => rfl
  | true =>
    have := List.all_eq_true.mp h x hx
    rw [hq] at this
    cases this

theorem dash_groups_fuel : ∀ (N : Nat) (cs : List Char), cs.length ≤ N →
    acceptsFrom .dash cs = tailGroupsOk (splitChars '-' cs)
  | _, [], _ => by decide
  | 0, c :: t, hle => by simp at hle
  | N + 1, c :: t, hle => by
    cases hA : isAlphaAZ c with
    | false =>
      have hs : acceptsFrom .dash (c :: t) = false := by
        show acceptsFrom (regexStep .dash c) t = _
        rw [show regexStep .dash c = .dead from by simp [regexStep, hA], acceptsFrom_dead]
      rw [hs]
      by_cases hd : c = '-'
      · subst hd
        rw [splitChars, if_pos rfl]
        obtain ⟨g, gs, hS⟩ : ∃ g gs, splitChars '-' t = g :: gs := by
          cases h : splitChars '-' t with
          | nil => exact absurd h (splitChars_ne_nil '-' t)
          | cons a b => exact ⟨a, b, rfl⟩
        rw [hS, tailGroupsOk]
        simp [subtagOkC, genOk]
      · rw [splitChars, if_neg hd]
        cases hS : splitChars '-' t with
        | nil => exact absurd hS (splitChars_ne_nil '-' t)
        | cons g1 gs =>
          cases gs with
          | nil =>
            rw [tailGroupsOk]
            by_cases hcn : c = '\n' ∧ g1 = []
            · obtain ⟨hc1, hg1⟩ := hcn
              subst hc1
              subst hg1
              decide
            · have := group_reject isAlphaAZ 2 8 [] c g1 hA hcn
              rw [List.nil_append] at this
              rw [this]
          | cons g2 gs2 =>
            rw [tailGroupsOk]
            have hsub : subtagOkC (c :: g1) = false := by simp [subtagOkC, genOk, hA]
            simp [hsub]
    | true =>
      have hs : acceptsFrom .dash (c :: t) =
          (decide (1 + (t.takeWhile isAlphaAZ).length ≤ 8) &&
           decide (2 ≤ 1 + (t.takeWhile isAlphaAZ).length) &&
           boundaryA (t.dropWhile isAlphaAZ)) := by
        show acceptsFrom (regexStep .dash c) t = _
        rw [show regexStep .dash c = .tag 1 from by simp [regexStep, hA]]
        exact tag_run t 1 (by omega) (by omega)
      rw [hs]
      have hsplit : t.takeWhile isAlphaAZ ++ t.dropWhile isAlphaAZ = t :=
        List.takeWhile_append_dropWhile isAlphaAZ t
      have hrunall : (t.takeWhile isAlphaAZ).all isAlphaAZ = true := all_takeWhile isAlphaAZ t
      have hrunne : ∀ x ∈ t.takeWhile isAlphaAZ, x ≠ '-' := by
        intro x hx
        exact alpha_ne_dash (List.all_eq_true.mp hrunall x hx)
      cases hR : t.dropWhile isAlphaAZ with
      | nil =>
        have ht : t.takeWhile isAlphaAZ = t := by
          have := hsplit
          rw [hR, List.append_nil] at this
          exact this
        have hall : t.all isAlphaAZ = true := by rw [← ht]; exact hrunall
        have hnosep : ∀ x ∈ c :: t, x ≠ '-' := by
          intro x hx
          rcases List.mem_cons.mp hx with hx | hx
          · subst hx; exact alpha_ne_dash hA
          · exact alpha_ne_dash (List.all_eq_true.mp hall x hx)
        rw [splitChars_nosep '-' (c :: t) hnosep, tailGroupsOk]
        rw [group_accept isAlphaAZ 2 8 (c :: t) (by simp [hall, hA]) (by decide)]
        rw [show boundaryA [] = true from rfl, ht]
        simp only [genOk, List.length_cons, List.all_cons, hA, hall, Bool.and_true,
          Bool.true_and]
        rw [show 1 + t.length = t.length + 1 from by omega]
        rw [Bool.and_comm]
      | cons d r2 =>
        have hdf : isAlphaAZ d = false := dropWhile_head_false isAlphaAZ t d r2 hR
        have ht : t = t.takeWhile isAlphaAZ ++ d :: r2 := by
          have h9 := hsplit
          rw [hR] at h9
          exact h9.symm
        by_cases hdd : d = '-'
        · subst hdd
          have hb : boundaryA ('-' :: r2) = acceptsFrom .dash r2 := by
            rw [boundaryA, if_neg (by decide), if_pos rfl]
          rw [hb]
          have hlen : r2.length ≤ N := by
            have := congrArg List.length ht
            simp only [List.length_append, List.length_cons] at this
            simp only [List.length_cons] at hle
            omega
          rw [dash_groups_fuel N r2 hlen]
          have hform : c :: t = (c :: t.takeWhile isAlphaAZ) ++ '-' :: r2 := by
            rw [List.cons_append]
            rw [← ht]
          rw [show splitChars '-' (c :: t) = (c :: t.takeWhile isAlphaAZ) :: splitChars '-' r2
            from by
              rw [hform]
              exact splitChars_append_sep '-' _ r2 (by
                intro x hx
                rcases List.mem_cons.mp hx with hx | hx
                · subst hx; exact alpha_ne_dash hA
                · exact hrunne x hx)]
          obtain ⟨g, gs, hS⟩ : ∃ g gs, splitChars '-' r2 = g :: gs := by
            cases h : splitChars '-' r2 with
            | nil => exact absurd h (splitChars_ne_nil '-' r2)
            | cons a b => exact ⟨a, b, rfl⟩
          rw [hS, tailGroupsOk, ← hS]
          simp only [subtagOkC, genOk, List.length_cons, List.all_cons, hA, hrunall,
            Bool.and_true, Bool.true_and]
          rw [show 1 + (t.takeWhile isAlphaAZ).length = (t.takeWhile isAlphaAZ).length + 1
            from by omega]
          cases h8 : decide ((t.takeWhile isAlphaAZ).length + 1 ≤ 8) <;>
            cases h2 : decide (2 ≤ (t.takeWhile isAlphaAZ).length + 1) <;> simp
        · by_cases hdn : d = '\n'
          · subst hdn
            have hb : boundaryA ('\n' :: r2) = decide (r2 = []) := by
              rw [boundaryA, if_pos rfl]
            rw [hb]
            cases r2 with
            | nil =>
              have hform : c :: t = (c :: t.takeWhile isAlphaAZ) ++ ['\n'] := by
                rw [List.cons_append, ← ht]
              have hnosep : ∀ x ∈ c :: t, x ≠ '-' := by
                rw [hform]
                intro x hx
                rcases List.mem_append.mp hx with hx | hx
                · rcases List.mem_cons.mp hx with hx | hx
                  · subst hx; exact alpha_ne_dash hA
                  · exact hrunne x hx
                · simp at hx
                  subst hx
                  decide
              rw [splitChars_nosep '-' (c :: t) hnosep, tailGroupsOk, hform]
              rw [group_accept_nl isAlphaAZ 2 8 (c :: t.takeWhile isAlphaAZ) (by decide)]
              simp only [genOk, List.length_cons, List.all_cons, hA, hrunall,
                Bool.and_true, Bool.true_and]
              rw [show 1 + (t.takeWhile isAlphaAZ).length = (t.takeWhile isAlphaAZ).length + 1
                from by omega]
              simp [Bool.and_comm]
            | cons d2 r3 =>
              simp only [show decide ((d2 :: r3 : List Char) = []) = false from by simp,
                Bool.and_false]
              symm
              rcases firstSep_split '-' (d2 :: r3) with hno | ⟨P, Q, hPQ, hP⟩
              · have hnosep : ∀ x ∈ c :: t, x ≠ '-' := by
                  intro x hx
                  rcases List.mem_cons.mp hx with hx | hx
                  · subst hx; exact alpha_ne_dash hA
                  · rw [ht] at hx
                    rcases List.mem_append.mp hx with hx | hx
                    · exact hrunne x hx
                    · rcases List.mem_cons.mp hx with hx | hx
                      · subst hx; decide
                      · exact hno x hx
                rw [splitChars_nosep '-' (c :: t) hnosep, tailGroupsOk]
                have hform : c :: t = (c :: t.takeWhile isAlphaAZ) ++ '\n' :: d2 :: r3 := by
                  rw [List.cons_append, ← ht]
                rw [hform]
                exact group_reject isAlphaAZ 2 8 (c :: t.takeWhile isAlphaAZ) '\n' (d2 :: r3)
                  (by decide) (by simp)
              · have hform : c :: t =
                    ((c :: t.takeWhile isAlphaAZ) ++ '\n' :: P) ++ '-' :: Q := by
                  conv_lhs => rw [ht, hPQ]
                  simp
                rw [hform]
                rw [splitChars_append_sep '-' _ Q (by
                  intro x hx
                  rcases List.mem_append.mp hx with hx | hx
                  · rcases List.mem_cons.mp hx with hx | hx
                    · subst hx; exact alpha_ne_dash hA
                    · exact hrunne x hx
                  · rcases List.mem_cons.mp hx with hx | hx
                    · subst hx; decide
                    · exact hP x hx)]
                obtain ⟨g, gs, hS⟩ : ∃ g gs, splitChars '-' Q = g :: gs := by
                  cases h : splitChars '-' Q with
                  | nil => exact absurd h (splitChars_ne_nil '-' Q)
                  | cons a b => exact ⟨a, b, rfl⟩
                rw [hS, tailGroupsOk]
                have hsub : subtagOkC (c :: (t.takeWhile isAlphaAZ ++ '\n' :: P)) = false := by
                  have hmem : ('\n' : Char) ∈ c :: (t.takeWhile isAlphaAZ ++ '\n' :: P) := by
                    simp
                  simp [subtagOkC, genOk, all_false_of_mem hmem (by decide : isAlphaAZ '\n' = false)]
                simp [hsub]
          · have hb : boundaryA (d :: r2) = false := by
              rw [boundaryA, if_neg hdn, if_neg hdd]
            rw [hb]
            simp only [Bool.and_false]
            symm
            rcases firstSep_split '-' (d :: r2) with hno | ⟨P, Q, hPQ, hP⟩
            · have hnosep : ∀ x ∈ c :: t, x ≠ '-' := by
                intro x hx
                rcases List.mem_cons.mp hx with hx | hx
                · subst hx; exact alpha_ne_dash hA
                · rw [ht] at hx
                  rcases List.mem_append.mp hx with hx | hx
                  · exact hrunne x hx
                  · exact hno x hx
              rw [splitChars_nosep '-' (c :: t) hnosep, tailGroupsOk]
              have hform : c :: t = (c :: t.takeWhile isAlphaAZ) ++ d :: r2 := by
                rw [List.cons_append, ← ht]
              rw [hform]
              exact group_reject isAlphaAZ 2 8 (c :: t.takeWhile isAlphaAZ) d r2 hdf
                (by intro hand; exact hdn hand.1)
            · cases P with
              | nil =>
                rw [List.nil_append] at hPQ
                injection hPQ with h1 h2
                exact absurd h1 hdd
              | cons p0 ps =>
                rw [List.cons_append] at hPQ
                injection hPQ with h1 h2
                subst h1
                have hform : c :: t =
                    ((c :: t.takeWhile isAlphaAZ) ++ d :: ps) ++ '-' :: Q := by
                  conv_lhs => rw [ht]
                  rw [h2]
                  simp
                rw [hform]
                rw [splitChars_append_sep '-' _ Q (by
                  intro x hx
                  rcases List.mem_append.mp hx with hx | hx
                  · rcases List.mem_cons.mp hx with hx | hx
                    · subst hx; exact alpha_ne_dash hA
                    · exact hrunne x hx
                  · rcases List.mem_cons.mp hx with hx | hx
                    · subst hx; exact hdd
                    · exact hP x (List.mem_cons_of_mem d hx))]
                obtain ⟨g, gs, hS⟩ : ∃ g gs, splitChars '-' Q = g :: gs := by
                  cases h : splitChars '-' Q with
                  | nil => exact absurd h (splitChars_ne_nil '-' Q)
                  | cons a b => exact ⟨a, b, rfl⟩
                rw [hS, tailGroupsOk]
                have hsub : subtagOkC (c :: (t.takeWhile isAlphaAZ ++ d :: ps)) = false := by
                  have hmem : d ∈ c :: (t.takeWhile isAlphaAZ ++ d :: ps) := by simp
                  simp [subtagOkC, genOk, all_false_of_mem hmem hdf]
                simp [hsub]


theorem top_groups (cs : List Char) :
    acceptsFrom (.prim 0) cs = groupsOkC (splitChars '-' cs) := by
  rw [prim_run cs 0 (by omega)]
  have hsplit : cs.takeWhile isLowerAZ ++ cs.dropWhile isLowerAZ = cs :=
    List.takeWhile_append_dropWhile isLowerAZ cs
  have hrunall : (cs.takeWhile isLowerAZ).all isLowerAZ = true := all_takeWhile isLowerAZ cs
  have hrunne : ∀ x ∈ cs.takeWhile isLowerAZ, x ≠ '-' := by
    intro x hx
    exact lower_ne_dash (List.all_eq_true.mp hrunall x hx)
  cases hR : cs.dropWhile isLowerAZ with
  | nil =>
    have hcs : cs.takeWhile isLowerAZ = cs := by
      have h9 := hsplit
      rw [hR, List.append_nil] at h9
      exact h9
    have hall : cs.all isLowerAZ = true := by rw [← hcs]; exact hrunall
    have hnosep : ∀ x ∈ cs, x ≠ '-' := by
      intro x hx
      exact lower_ne_dash (List.all_eq_true.mp hall x hx)
    rw [splitChars_nosep '-' cs hnosep, groupsOkC]
    rw [group_accept isLowerAZ 2 3 cs hall (by decide)]
    rw [show boundaryA [] = true from rfl, hcs]
    simp only [genOk, hall, Bool.and_true, Bool.true_and, Nat.zero_add]
    rw [Bool.and_comm]
  | cons d r2 =>
    have hdf : isLowerAZ d = false := dropWhile_head_false isLowerAZ cs d r2 hR
    have hcs : cs = cs.takeWhile isLowerAZ ++ d :: r2 := by
      have h9 := hsplit
      rw [hR] at h9
      exact h9.symm
    by_cases hdd : d = '-'
    · subst hdd
      have hb : boundaryA ('-' :: r2) = acceptsFrom .dash r2 := by
        rw [boundaryA, if_neg (by decide), if_pos rfl]
      rw [hb, dash_groups_fuel r2.length r2 (by omega)]
      rw [show splitChars '-' cs = cs.takeWhile isLowerAZ :: splitChars '-' r2 from by
        conv_lhs => rw [hcs]
        exact splitChars_append_sep '-' _ r2 hrunne]
      obtain ⟨g, gs, hS⟩ : ∃ g gs, splitChars '-' r2 = g :: gs := by
        cases h : splitChars '-' r2 with
        | nil => exact absurd h (splitChars_ne_nil '-' r2)
        | cons a b => exact ⟨a, b, rfl⟩
      rw [hS, groupsOkC, ← hS]
      simp only [primaryOkC, genOk, hrunall, Bool.and_true, Bool.true_and, Nat.zero_add]
      cases h3 : decide ((cs.takeWhile isLowerAZ).length ≤ 3) <;>
        cases h2 : decide (2 ≤ (cs.takeWhile isLowerAZ).length) <;> simp
    · by_cases hdn : d = '\n'
      · subst hdn
        have hb : boundaryA ('\n' :: r2) = decide (r2 = []) := by
          rw [boundaryA, if_pos rfl]
        rw [hb]
        cases r2 with
        | nil =>
          have hnosep : ∀ x ∈ cs, x ≠ '-' := by
            intro x hx
            rw [hcs] at hx
            rcases List.mem_append.mp hx with hx | hx
            · exact hrunne x hx
            · simp at hx
              subst hx
              decide
          rw [splitChars_nosep '-' cs hnosep, groupsOkC]
          conv_rhs => rw [hcs]
          rw [group_accept_nl isLowerAZ 2 3 (cs.takeWhile isLowerAZ) (by decide)]
          simp only [genOk, hrunall, Bool.and_true, Bool.true_and, Nat.zero_add]
          simp [Bool.and_comm]
        | cons d2 r3 =>
          simp only [show decide ((d2 :: r3 : List Char) = []) = false from by simp,
            Bool.and_false]
          symm
          rcases firstSep_split '-' (d2 :: r3) with hno | ⟨P, Q, hPQ, hP⟩
          · have hnosep : ∀ x ∈ cs, x ≠ '-' := by
              intro x hx
              rw [hcs] at hx
              rcases List.mem_append.mp hx with hx | hx
              · exact hrunne x hx
              · rcases List.mem_cons.mp hx with hx | hx
                · subst hx; decide
                · exact hno x hx
            rw [splitChars_nosep '-' cs hnosep, groupsOkC]
            conv_lhs => rw [hcs]
            exact group_reject isLowerAZ 2 3 (cs.takeWhile isLowerAZ) '\n' (d2 :: r3)
              (by decide) (by simp)
          · have hform : cs = (cs.takeWhile isLowerAZ ++ '\n' :: P) ++ '-' :: Q := by
              conv_lhs => rw [hcs, hPQ]
              simp
            rw [hform]
            rw [splitChars_append_sep '-' _ Q (by
              intro x hx
              rcases List.mem_append.mp hx with hx | hx
              · exact hrunne x hx
              · rcases List.mem_cons.mp hx with hx | hx
                · subst hx; decide
                · exact hP x hx)]
            obtain ⟨g, gs, hS⟩ : ∃ g gs, splitChars '-' Q = g :: gs := by
              cases h : splitChars '-' Q with
              | nil => exact absurd h (splitChars_ne_nil '-' Q)
              | cons a b => exact ⟨a, b, rfl⟩
            rw [hS, groupsOkC]
            have hsub : primaryOkC (cs.takeWhile isLowerAZ ++ '\n' :: P) = false := by
              have hmem : ('\n' : Char) ∈ cs.takeWhile isLowerAZ ++ '\n' :: P := by simp
              simp [primaryOkC, genOk,
                all_false_of_mem hmem (by decide : isLowerAZ '\n' = false)]
            simp [hsub]
      · have hb : boundaryA (d :: r2) = false := by
          rw [boundaryA, if_neg hdn, if_neg hdd]
        rw [hb]
        simp only [Bool.and_false]
        symm
        rcases firstSep_split '-' (d :: r2) with hno | ⟨P, Q, hPQ, hP⟩
        · have hnosep : ∀ x ∈ cs, x ≠ '-' := by
            intro x hx
            rw [hcs] at hx
            rcases List.mem_append.mp hx with hx | hx
            · exact hrunne x hx
            · exact hno x hx
          rw [splitChars_nosep '-' cs hnosep, groupsOkC]
          conv_lhs => rw [hcs]
          exact group_reject isLowerAZ 2 3 (cs.takeWhile isLowerAZ) d r2 hdf
            (fun hand => hdn hand.1)
        · cases P with
          | nil =>
            rw [List.nil_append] at hPQ
            injection hPQ with h1 h2
            exact absurd h1 hdd
          | cons p0 ps =>
            rw [List.cons_append] at hPQ
            injection hPQ with h1 h2
            subst h1
            have hform : cs = (cs.takeWhile isLowerAZ ++ d :: ps) ++ '-' :: Q := by
              conv_lhs => rw [hcs]
              rw [h2]
              simp
            rw [hform]
            rw [splitChars_append_sep '-' _ Q (by
              intro x hx
              rcases List.mem_append.mp hx with hx | hx
              · exact hrunne x hx
              · rcases List.mem_cons.mp hx with hx | hx
                · subst hx; exact hdd
                · exact hP x (List.mem_cons_of_mem d hx))]
            obtain ⟨g, gs, hS⟩ : ∃ g gs, splitChars '-' Q = g :: gs := by
              cases h : splitChars '-' Q with
              | nil => exact absurd h (splitChars_ne_nil '-' Q)
              | cons a b => exact ⟨a, b, rfl⟩
            rw [hS, groupsOkC]
            have hsub : primaryOkC (cs.takeWhile isLowerAZ ++ d :: ps) = false := by
              have hmem : d ∈ cs.takeWhile isLowerAZ ++ d :: ps := by simp
              simp [primaryOkC, genOk, all_false_of_mem hmem hdf]
            simp [hsub]


theorem splitChars_append_char (c : Char) (hc : ¬c = '-') : ∀ (cs : List Char),
    splitChars '-' (cs ++ [c]) =
      (splitChars '-' cs).dropLast ++ [((splitChars '-' cs).getLastD []) ++ [c]]
  | [] => by
    rw [List.nil_append]
    rw [show splitChars '-' [] = [[]] from rfl]
    rw [splitChars, if_neg hc]
    rw [show splitChars '-' [] = [[]] from rfl]
    simp
  | d :: cs => by
    rw [List.cons_append, splitChars, splitChars]
    by_cases hd : d = '-'
    · rw [if_pos hd, if_pos hd]
      rw [splitChars_append_char c hc cs]
      obtain ⟨g, gs, hS⟩ : ∃ g gs, splitChars '-' cs = g :: gs := by
        cases h : splitChars '-' cs with
        | nil => exact absurd h (splitChars_ne_nil '-' cs)
        | cons a b => exact ⟨a, b, rfl⟩
      rw [hS]
      cases gs with
      | nil => simp
      | cons g2 gs2 => simp
    · rw [if_neg hd, if_neg hd]
      rw [splitChars_append_char c hc cs]
      obtain ⟨g, gs, hS⟩ : ∃ g gs, splitChars '-' cs = g :: gs := by
        cases h : splitChars '-' cs with
        | nil => exact absurd h (splitChars_ne_nil '-' cs)
        | cons a b => exact ⟨a, b, rfl⟩
      rw [hS]
      cases gs with
      | nil => simp
      | cons g2 gs2 => simp

theorem splitChars_append_dash : ∀ (cs : List Char),
    splitChars '-' (cs ++ ['-']) = splitChars '-' cs ++ [[]]
  | [] => rfl
  | d :: cs => by
    rw [List.cons_append, splitChars, splitChars]
    by_cases hd : d = '-'
    · rw [if_pos hd, if_pos hd, splitChars_append_dash cs]
      simp
    · rw [if_neg hd, if_neg hd, splitChars_append_dash cs]
      obtain ⟨g, gs, hS⟩ : ∃ g gs, splitChars '-' cs = g :: gs := by
        cases h : splitChars '-' cs with
        | nil => exact absurd h (splitChars_ne_nil '-' cs)
        | cons a b => exact ⟨a, b, rfl⟩
      rw [hS]
      simp

theorem mem_group (sep x : Char) (hx : ¬x = sep) : ∀ (cs : List Char), x ∈ cs →
    ∃ g ∈ splitChars sep cs, x ∈ g
  | [], h => absurd h (by simp)
  | c :: cs, h => by
    rw [splitChars]
    by_cases hc : c = sep
    · rw [if_pos hc]
      rcases List.mem_cons.mp h with h | h
      · exact absurd (h.trans hc) hx
      · obtain ⟨g, hg, hxg⟩ := mem_group sep x hx cs h
        exact ⟨g, List.mem_cons_of_mem [] hg, hxg⟩
    · rw [if_neg hc]
      obtain ⟨g1, gs, hS⟩ : ∃ g1 gs, splitChars sep cs = g1 :: gs := by
        cases hh : splitChars sep cs with
        | nil => exact absurd hh (splitChars_ne_nil sep cs)
        | cons a b => exact ⟨a, b, rfl⟩
      rw [hS]
      rcases List.mem_cons.mp h with h | h
      · exact ⟨c :: g1, by simp, by simp [h]⟩
      · obtain ⟨g, hg, hxg⟩ := mem_group sep x hx cs h
        rw [hS] at hg
        rcases List.mem_cons.mp hg with hg | hg
        · exact ⟨c :: g1, by simp, by simp [hg ▸ hxg]⟩
        · exact ⟨g, by simp [hg], hxg⟩

theorem plainG_newline_false (cs : List Char) (hmem : ('\n' : Char) ∈ cs) :
    plainG (splitChars '-' cs) = false := by
  obtain ⟨g, hg, hxg⟩ := mem_group '-' '\n' (by decide) cs hmem
  obtain ⟨p, subs, hS⟩ : ∃ p subs, splitChars '-' cs = p :: subs := by
    cases h : splitChars '-' cs with
    | nil => exact absurd h (splitChars_ne_nil '-' cs)
    | cons a b => exact ⟨a, b, rfl⟩
  rw [hS]
  rw [hS] at hg
  rw [plainG]
  rcases List.mem_cons.mp hg with hg | hg
  · have hp : primaryOkC p = false := by
      rw [hg] at hxg
      simp [primaryOkC, genOk, all_false_of_mem hxg (by decide : isLowerAZ '\n' = false)]
    simp [hp]
  · have hsubs : subs.all subtagOkC = false := by
      have hsg : subtagOkC g = false := by
        simp [subtagOkC, genOk, all_false_of_mem hxg (by decide : isAlphaAZ '\n' = false)]
      exact all_false_of_mem hg hsg
    simp [hsubs]


theorem tailGroups_nl : ∀ (S : List (List Char)), S ≠ [] →
    tailGroupsOk (S.dropLast ++ [(S.getLastD []) ++ ['\n']]) = S.all subtagOkC
  | [], h => absurd rfl h
  | [g], _ => by
    rw [show ([g] : List (List Char)).dropLast = [] from rfl,
      show ([g] : List (List Char)).getLastD [] = g from rfl, List.nil_append]
    rw [show tailGroupsOk [g ++ ['\n']] = lastGroupOk isAlphaAZ 2 8 (g ++ ['\n']) from rfl]
    rw [group_accept_nl isAlphaAZ 2 8 g (by decide)]
    simp [subtagOkC]
  | g :: g2 :: S2, _ => by
    rw [show (g :: g2 :: S2).dropLast = g :: (g2 :: S2).dropLast from rfl,
      show (g :: g2 :: S2).getLastD [] = (g2 :: S2).getLastD [] from rfl, List.cons_append]
    cases hd : (g2 :: S2).dropLast ++ [(g2 :: S2).getLastD [] ++ ['\n']] with
    | nil => exact absurd hd (by simp)
    | cons y ys =>
      rw [show tailGroupsOk (g :: y :: ys) = (subtagOkC g && tailGroupsOk (y :: ys)) from rfl]
      rw [← hd, tailGroups_nl (g2 :: S2) (by simp)]
      simp

theorem groups_nl : ∀ (S : List (List Char)), S ≠ [] →
    groupsOkC (S.dropLast ++ [(S.getLastD []) ++ ['\n']]) = plainG S
  | [], h => absurd rfl h
  | [p], _ => by
    rw [show ([p] : List (List Char)).dropLast = [] from rfl,
      show ([p] : List (List Char)).getLastD [] = p from rfl, List.nil_append]
    rw [show groupsOkC [p ++ ['\n']] = lastGroupOk isLowerAZ 2 3 (p ++ ['\n']) from rfl]
    rw [group_accept_nl isLowerAZ 2 3 p (by decide)]
    simp [plainG, primaryOkC]
  | p :: g2 :: S2, _ => by
    rw [show (p :: g2 :: S2).dropLast = p :: (g2 :: S2).dropLast from rfl,
      show (p :: g2 :: S2).getLastD [] = (g2 :: S2).getLastD [] from rfl, List.cons_append]
    cases hd : (g2 :: S2).dropLast ++ [(g2 :: S2).getLastD [] ++ ['\n']] with
    | nil => exact absurd hd (by simp)
    | cons y ys =>
      rw [show groupsOkC (p :: y :: ys) = (primaryOkC p && tailGroupsOk (y :: ys)) from rfl]
      rw [← hd, tailGroups_nl (g2 :: S2) (by simp)]
      rw [plainG]

theorem tailGroups_plain : ∀ (S : List (List Char)), S ≠ [] →
    ((S.getLastD []).getLast? == some '\n') = false →
    tailGroupsOk S = S.all subtagOkC
  | [], h, _ => absurd rfl h
  | [g], _, hnl => by
    rw [show ([g] : List (List Char)).getLastD [] = g from rfl] at hnl
    rw [show tailGroupsOk [g] = lastGroupOk isAlphaAZ 2 8 g from rfl]
    rw [lastGroupOk, hnl]
    simp [subtagOkC]
  | g :: g2 :: S2, _, hnl => by
    rw [show (g :: g2 :: S2).getLastD [] = (g2 :: S2).getLastD [] from rfl] at hnl
    rw [show tailGroupsOk (g :: g2 :: S2) = (subtagOkC g && tailGroupsOk (g2 :: S2)) from rfl]
    rw [tailGroups_plain (g2 :: S2) (by simp) hnl]
    simp

theorem groups_plain : ∀ (S : List (List Char)), S ≠ [] →
    ((S.getLastD []).getLast? == some '\n') = false →
    groupsOkC S = plainG S
  | [], h, _ => absurd rfl h
  | [p], _, hnl => by
    rw [show ([p] : List (List Char)).getLastD [] = p from rfl] at hnl
    rw [show groupsOkC [p] = lastGroupOk isLowerAZ 2 3 p from rfl]
    rw [lastGroupOk, hnl]
    simp [plainG, primaryOkC]
  | p :: g2 :: S2, _, hnl => by
    rw [show (p :: g2 :: S2).getLastD [] = (g2 :: S2).getLastD [] from rfl] at hnl
    rw [show groupsOkC (p :: g2 :: S2) = (primaryOkC p && tailGroupsOk (g2 :: S2)) from rfl]
    rw [tailGroups_plain (g2 :: S2) (by simp) hnl]
    rw [plainG]

theorem groups_bridge (cs : List Char) : groupsOkC (splitChars '-' cs) =
    (plainG (splitChars '-' cs) ||
      (cs.getLast? == some '\n' && plainG (splitChars '-' cs.dropLast))) := by
  rcases List.eq_nil_or_concat cs with h | ⟨t, c, h⟩
  · subst h
    decide
  · subst h
    simp only [List.concat_eq_append]
    by_cases hc : c = '\n'
    · subst hc
      rw [List.getLast?_concat, List.dropLast_concat]
      have h1 : plainG (splitChars '-' (t ++ ['\n'])) = false :=
        plainG_newline_false _ (by simp)
      rw [h1, Bool.false_or]
      rw [show ((some '\n' == some '\n') = true) from by decide]
      rw [Bool.true_and]
      rw [splitChars_append_char '\n' (by decide) t]
      exact groups_nl (splitChars '-' t) (splitChars_ne_nil '-' t)
    · by_cases hdash : c = '-'
      · subst hdash
        rw [List.getLast?_concat, List.dropLast_concat]
        rw [show ((some '-' == some '\n') = false) from by decide, Bool.false_and,
          Bool.or_false]
        rw [splitChars_append_dash t]
        apply groups_plain
        · simp
        · rw [show (splitChars '-' t ++ [([] : List Char)]).getLastD [] = [] from
            List.getLastD_concat _ _ _]
          decide
      · rw [List.getLast?_concat, List.dropLast_concat]
        rw [show ((some c == some '\n') = false) from by simp [hc], Bool.false_and,
          Bool.or_false]
        rw [splitChars_append_char c hdash t]
        apply groups_plain
        · simp
        · rw [List.getLastD_concat, List.getLast?_concat]
          simp [hc]

theorem all_map_comp {α β : Type} (f : α → β) (p : β → Bool) : ∀ (l : List α),
    (l.map f).all p = l.all (fun x => p (f x))
  | [] => rfl
  | x :: l => by
    rw [List.map_cons, List.all_cons, List.all_cons, all_map_comp f p l]

theorem amended_eq (s : String) : amendedLocalePattern s = plainG (splitChars '-' s.data) := by
  unfold amendedLocalePattern splitOnDash plainG
  cases h : splitChars '-' s.data with
  | nil => rfl
  | cons p subs =>
    simp only [List.map_cons]
    show ((decide (2 ≤ (String.mk p).length) && decide ((String.mk p).length ≤ 3) &&
        (String.mk p).data.all isLowerAZ) &&
      ((subs.map String.mk).all
        (fun t => decide (2 ≤ t.length) && decide (t.length ≤ 8) && t.data.all isAlphaAZ)))
      = (primaryOkC p && subs.all subtagOkC)
    rw [all_map_comp]
    rfl

theorem regex_pattern_equiv (s : String) : ISO_language_code_match s = amendedNL s := by
  rw [show ISO_language_code_match s = acceptsFrom (.prim 0) s.data from rfl]
  rw [top_groups, groups_bridge, amendedNL, amended_eq s,
    amended_eq (String.mk s.data.dropLast)]

/-- C8 amended: `set_locale` accepts exactly the strings matched by the
code's regex — 2-3 lowercase letters optionally followed by
`-`-separated subtags of 2-8 letters (not 1-8 as claimed), with Python's
`$` anchor additionally tolerating a single trailing newline — plus the
empty string, which falls back to the default locale (`locale or
self._default_locale`); everything else raises the invalid-locale
error carrying the offending value.  The first conjunct checks the
translated regex against the claim-side reading of the amended pattern
(`amendedNL`, built from dash-splitting) for every string. -/
theorem C8_amended_locale_validation (st : NodeState) (s : String)
    (hdef : ISO_language_code_match st.default_locale = true) :
    (∀ t : String, ISO_language_code_match t = amendedNL t) ∧
    ((∃ st2, set_locale st (some s) = .ok st2) ↔ (s = "" ∨ ISO_language_code_match s = true)) ∧
    (ISO_language_code_match s = false → s ≠ "" →
      set_locale st (some s) = .error (.valueInvalidLocale s)) ∧
    ISO_language_code_match "en" = true ∧
    ISO_language_code_match "en-ab" = true ∧
    ISO_language_code_match "zh-Hant-HK" = true ∧
    ISO_language_code_match "en-abcdefgh" = true ∧
    ISO_language_code_match "en\n" = true ∧
    ISO_language_code_match "en-a" = false ∧
    ISO_language_code_match "e" = false ∧
    ISO_language_code_match "EN" = false ∧
    ISO_language_code_match "en-" = false ∧
    ISO_language_code_match "en-abcdefghi" = false ∧
    ISO_language_code_match "" = false := by
  refine ⟨fun t => regex_pattern_equiv t, ?_, ?_, by decide, by decide, by decide, by decide,
    by decide, by decide, by decide, by decide, by decide, by decide, by decide⟩
  · unfold set_locale
    simp only []
    by_cases hs : s = ""
    · subst hs
      rw [if_neg (by simp)]
      simp [hdef]
    · rw [if_pos hs]
      cases hm : ISO_language_code_match s
      · simp [hs]
      · simp [hs]
  · intro hm hs
    unfold set_locale
    simp only []
    rw [if_pos hs, hm]


/-- C8 amended, witness. -/
theorem C8_amended_locale_validation_witness :
    (∃ st2, set_locale (mkSectionState "override" "en-US" "" [] .nil (.dict .nil)) (some "de")
      = .ok st2) ∧
    set_locale (mkSectionState "override" "en-US" "" [] .nil (.dict .nil)) (some "q")
      = .error (.valueInvalidLocale "q") :=
  ⟨(C8_amended_locale_validation (mkSectionState "override" "en-US" "" [] .nil (.dict .nil))
      "de" (by decide)).2.1.mpr (Or.inr (by decide)),
   (C8_amended_locale_validation (mkSectionState "override" "en-US" "" [] .nil (.dict .nil))
      "q" (by decide)).2.2.1 (by decide) (by decide)⟩

end TieCore
